import Mathlib

/-!
Verification of the DigiviceColorModifier binary ROM editing tools.

This file gives a shallow embedding, in Lean 4, of the byte-level core of the
repository's Python scripts (archive scanning, text-archive decoding, name
patching, sprite-package scanning, MSB-first pixel packing, the GeneralPlus
ADPCM codec and the in-place patch writes), and proves or refutes the frozen
specification claims about them.

Conventions of the embedding:
* A Python `bytes` / `bytearray` value is modelled as a `ByteBuf`: a length
  together with a byte-valued index function.  Python slicing (which clamps
  out-of-range indices) is `pySlice`; Python `bytearray` slice assignment
  (which can grow the buffer when the target range sticks out past the end)
  is `pySetSlice`.
* Python `str` values that the scripts manipulate character-by-character are
  modelled as `List Char` (conversions to Lean `String` appear only where the
  scripts produce display strings such as `"<0041>"` or archive path keys).
* Machine integers are `Nat`/`Int` with explicit `% 256` / `% 65536` where the
  Python code masks; `struct.unpack_from("<H"/"<I")` becomes `le16`/`le32`.
* Fallible Python code (functions returning `None`, raising `ValueError` or
  `struct.error`) returns `Option`.
-/

set_option maxRecDepth 100000
set_option maxHeartbeats 2000000

namespace DCM

/-- A byte buffer: the model of Python `bytes`/`bytearray`.  `byte i` is only
meaningful for `i < size`; the embedded code never reads out of bounds on the
paths exercised here (the Python originals would raise). -/
structure ByteBuf where
  size : Nat
  byte : Nat → Nat

/-- Build a `ByteBuf` from an explicit byte list (bytes past the end read 0;
never consulted in-bounds-wise). -/
def listBuf (l : List Nat) : ByteBuf :=
  ⟨l.length, fun i => l.getD i 0⟩

/-- Python slicing `b[start:stop]` with non-negative indices: both bounds are
clamped to the buffer, and an inverted range yields the empty buffer. -/
def pySlice (b : ByteBuf) (start stop : Nat) : ByteBuf :=
  let s := min start b.size
  let e := min (max stop s) b.size
  ⟨e - s, fun i => b.byte (s + i)⟩

/-- Python `bytearray` slice assignment `b[start:stop] = repl` with
non-negative indices: the (clamped) target range is replaced by `repl`, so the
buffer grows or shrinks by `repl.length - (clamped range length)`. -/
def pySetSlice (b : ByteBuf) (start stop : Nat) (repl : List Nat) : ByteBuf :=
  let s := min start b.size
  let e := min (max stop s) b.size
  ⟨b.size - (e - s) + repl.length,
   fun i =>
     if i < s then b.byte i
     else if i < s + repl.length then repl.getD (i - s) 0
     else b.byte (i + (e - s) - repl.length)⟩

/-- `struct.unpack_from("<H", b, o)`: little-endian 16-bit read. -/
def le16 (b : ByteBuf) (o : Nat) : Nat :=
  b.byte o + 256 * b.byte (o + 1)

/-- `struct.unpack_from("<I", b, o)`: little-endian 32-bit read. -/
def le32 (b : ByteBuf) (o : Nat) : Nat :=
  b.byte o + 256 * b.byte (o + 1) + 65536 * b.byte (o + 2) +
    16777216 * b.byte (o + 3)

/-- `struct.unpack_from("<h", b, o)`: little-endian signed 16-bit read. -/
def se16 (b : ByteBuf) (o : Nat) : Int :=
  let v := le16 b o
  if v < 32768 then (v : Int) else (v : Int) - 65536

/-- Uppercase hexadecimal digit, as in Python `"%X"` formatting. -/
def hexDigitChar (n : Nat) : Char :=
  Char.ofNat (if n < 10 then 48 + n else 55 + n)

/-- Python `f"{w:04X}"` for `w < 0x10000`: four uppercase hex digits. -/
def hex4 (w : Nat) : String :=
  String.mk [hexDigitChar (w / 4096 % 16), hexDigitChar (w / 256 % 16),
             hexDigitChar (w / 16 % 16), hexDigitChar (w % 16)]

/-- Digits of `n` in uppercase hex, most significant first (empty for 0). -/
def hexDigitsGo (n : Nat) : List Char :=
  if h : n = 0 then []
  else hexDigitsGo (n / 16) ++ [hexDigitChar (n % 16)]
  termination_by n
  decreasing_by exact Nat.div_lt_self (Nat.pos_of_ne_zero h) (by omega)

/-- Python `f"{n:X}"`: uppercase hex with no padding. -/
def hexUpper (n : Nat) : String :=
  if n = 0 then "0" else String.mk (hexDigitsGo n)

/-- `range(0, stop, 2)` over `Nat` (matching Python's empty range when the
stop underflows to 0). -/
def evenOffsets (stop : Nat) : List Nat :=
  (List.range ((stop + 1) / 2)).map (fun k => 2 * k)

/-- `range(0, stop, 4)` over `Nat`. -/
def quadOffsets (stop : Nat) : List Nat :=
  (List.range ((stop + 3) / 4)).map (fun k => 4 * k)

/-! ## Archive scanner
Embedded from `export_d3_npc_names.py` (`is_probable_tama_archive`,
`iter_all_archives`); `import_d3_npc_names.py`, `import_d3_data.py`,
`import_digivice_data.py` and `import_digivice_npc_names.py` contain
byte-for-byte identical copies of this logic. -/

/-- One 16-byte archive entry record. -/
structure ArchEntry where
  flags : Nat
  offset : Nat
  comp_len : Nat
  decomp_len : Nat
deriving DecidableEq

/-- A detected archive.  The Python dataclass also stores `data` (the whole
input buffer); the traversal always passes the root buffer alongside, so the
field is omitted here. -/
structure Archive where
  base_off : Nat
  count : Nat
  entries : List ArchEntry
deriving DecidableEq

/-- Read the `i`-th entry of the archive table at `abs_off`. -/
def readArchEntry (buf : ByteBuf) (abs_off i : Nat) : ArchEntry :=
  let e := abs_off + 4 + i * 16
  ⟨le32 buf e, le32 buf (e + 4), le32 buf (e + 8), le32 buf (e + 12)⟩

/-- `is_probable_tama_archive(buf, abs_off)`: magic `0x3232`, entry count in
`[1, 65535]`, the entry table in bounds, and every entry's absolute offset in
bounds.  The Python loop aborts with `None` on the first bad entry; returning
`none` whenever any entry is bad is the same function. -/
def is_probable_tama_archive (buf : ByteBuf) (abs_off : Nat) : Option Archive :=
  if abs_off + 4 > buf.size then none
  else if le16 buf abs_off ≠ 0x3232 then none
  else
    let count := le16 buf (abs_off + 2)
    if ¬ (1 ≤ count ∧ count ≤ 65535) then none
    else if abs_off + 4 + count * 16 > buf.size then none
    else
      let entries := (List.range count).map (readArchEntry buf abs_off)
      if entries.all (fun e => abs_off + e.offset ≤ buf.size) then
        some ⟨abs_off, count, entries⟩
      else none

/-- The top-level scan of `iter_all_archives`: every 2-aligned offset in
`range(0, len(buf)-4, 2)` whose header validates, keyed `f"off=0x{off:X}"`. -/
def archTops (buf : ByteBuf) : List (String × Archive) :=
  (evenOffsets (buf.size - 4)).filterMap (fun off =>
    (is_probable_tama_archive buf off).map
      (fun a => ("off=0x" ++ hexUpper off, a)))

/-- The children enqueued for one dequeued `(path, archive)` pair: for each
entry index `idx` (in order), the archive header validated at the entry's
absolute offset, keyed `f"{path}/idx={idx}"`.  Note the Python loop applies
no condition on `e.flags` here. -/
def archChildren (buf : ByteBuf) (pa : String × Archive) :
    List (String × Archive) :=
  pa.2.entries.enum.filterMap (fun ie =>
    (is_probable_tama_archive buf (pa.2.base_off + ie.2.offset)).map
      (fun sub => (pa.1 ++ "/idx=" ++ toString ie.1, sub)))

/-- The FIFO traversal of `iter_all_archives` yields items in breadth-first
level order; `archLevel buf d` is the list of items carrying depth `d`. -/
def archLevel (buf : ByteBuf) : Nat → List (String × Archive)
  | 0 => archTops buf
  | d + 1 => (archLevel buf d).flatMap (archChildren buf)

/-- `iter_all_archives(buf, max_depth)`: the queue starts with all depth-0
tops, each dequeued item is yielded, and items of depth `< max_depth` enqueue
their children at depth `+1`; with a FIFO queue this yields exactly the
levels `0 .. max_depth` in order. -/
def iter_all_archives (buf : ByteBuf) (maxDepth : Nat) :
    List (String × Archive) :=
  (List.range (maxDepth + 1)).flatMap (archLevel buf)

/-! ## Text archives -/

/-- A validated text archive header.  The Python dataclass additionally
carries `base_off`, `path` and the byte view; callers here pass the view and
base offset alongside. -/
structure TextArchive where
  n_strings : Nat
  offsets_word : List Nat
deriving DecidableEq

/-- The offset-walk of the validators: `prev = 0; for w in offs: if w < prev
or w*2 >= len(view): reject; prev = w`. -/
def offsetsOk (viewLen : Nat) : Nat → List Nat → Bool
  | _, [] => true
  | prev, w :: rest =>
    if w < prev ∨ w * 2 ≥ viewLen then false else offsetsOk viewLen w rest

/-- `is_probable_text_archive(view)` from `export_d3_npc_names.py` (identical
in `import_d3_npc_names.py`, `import_d3_data.py` and, as `is_text_archive`,
in the Digivice import scripts): header count in `[1, 20000]`, offset table
in bounds, offsets non-decreasing and each `w*2 < len(view)`.  No check on
string termination is performed. -/
def is_probable_text_archive (view : ByteBuf) : Option TextArchive :=
  if view.size < 4 then none
  else
    let n := le16 view 0
    if ¬ (1 ≤ n ∧ n ≤ 20000) then none
    else if 2 + 2 * n > view.size then none
    else
      let offs := (List.range n).map (fun i => le16 view (2 + 2 * i))
      if offsetsOk view.size 0 offs then some ⟨n, offs⟩ else none

/-- The terminator scan of `export_digivice_data.py` (and
`export_d3_data.py`): from byte offset `p` (starting at `w2 = w*2`), walk
16-bit words while `p + 2 <= len(view)` and `p - w2 <= 4096`, succeeding on
the first zero word.  `p` grows by 2 each round and stays below `view.size`,
so the caller-supplied structural fuel `view.size + 2` can never run out. -/
def termScanGo (view : ByteBuf) (w2 : Nat) : Nat → Nat → Bool
  | 0, _ => false
  | fuel + 1, p =>
    if p + 2 ≤ view.size ∧ p - w2 ≤ 4096 then
      if le16 view p = 0 then true else termScanGo view w2 fuel (p + 2)
    else false

/-- String `w` (a word offset) has a zero terminator within the 4096-byte
scan window. -/
def hasTerminatorWithin (view : ByteBuf) (w : Nat) : Bool :=
  termScanGo view (w * 2) (view.size + 2) (w * 2)

/-- `is_probable_text_archive(view)` from `export_digivice_data.py`: the same
header checks as above, plus the requirement that every string has a zero
terminator within the 4096-byte scan window from its start. -/
def digivice_is_probable_text_archive (view : ByteBuf) : Option TextArchive :=
  if view.size < 4 then none
  else
    let n := le16 view 0
    if ¬ (1 ≤ n ∧ n ≤ 20000) then none
    else if 2 + 2 * n > view.size then none
    else
      let offs := (List.range n).map (fun i => le16 view (2 + 2 * i))
      if offsetsOk view.size 0 offs then
        if offs.all (fun w => hasTerminatorWithin view w) then some ⟨n, offs⟩
        else none
      else none

/-- The word-reading loop of `decode_string(view, start)`: while
`p + 2 <= len(view)`, read a word; 0 terminates, words `>= 0xF000` are
dropped, every other word becomes a `"<XXXX>"` tag.  The loop advances `p`
by 2 each round, so it runs at most `view.size` times; the first argument is
structural fuel that the caller sizes so it can never run out (this keeps
the definition kernel-computable). -/
def decodeStringGo (view : ByteBuf) : Nat → Nat → List String
  | 0, _ => []
  | fuel + 1, p =>
    if p + 2 ≤ view.size then
      let w := le16 view p
      if w = 0 then []
      else if w ≥ 0xF000 then decodeStringGo view fuel (p + 2)
      else ("<" ++ hex4 w ++ ">") :: decodeStringGo view fuel (p + 2)
    else []

/-- `decode_string(view, start)` from `export_d3_npc_names.py`. -/
def decode_string (view : ByteBuf) (start : Nat) : String :=
  String.join (decodeStringGo view (view.size + 2) start)

/-! ## Replacement rules and name encoding -/

/-- Inner loop of Python `s.replace(a, b)` for a non-empty pattern `a`:
replace the leftmost occurrence, continue after the replacement.  (For
`a = []` the wrapper `pyReplace` handles Python's empty-pattern behaviour.)
Every round consumes at least one character of `s`, so structural fuel
`s.length` can never run out; the `(0, _ :: _)` case is unreachable. -/
def pyReplaceGo (a b : List Char) : Nat → List Char → List Char
  | _, [] => []
  | 0, s => s
  | fuel + 1, c :: rest =>
    if a ≠ [] ∧ (c :: rest).take a.length = a then
      b ++ pyReplaceGo a b fuel (rest.drop (a.length - 1))
    else c :: pyReplaceGo a b fuel rest

/-- Python `s.replace(a, b)`: all non-overlapping occurrences, left to right.
`s.replace("", b)` interleaves `b` before every character and at the end. -/
def pyReplace (s a b : List Char) : List Char :=
  if a = [] then b ++ s.flatMap (fun c => c :: b)
  else pyReplaceGo a b s.length s

/-- `apply_rules(s, rules)` / `apply_replacements` / `apply_reverse`: apply
each `(src, dst)` rule in order with `str.replace`. -/
def applyRulesL (s : List Char) (rules : List (List Char × List Char)) :
    List Char :=
  rules.foldl (fun acc r => pyReplace acc r.1 r.2) s

/-- `FORBIDDEN_CHARS` of `import_d3_npc_names.py`:
the characters of `+-:<>?!~`'"[]{}\|@#$%^&*,` (no `=`). -/
def FORBIDDEN_CHARS_D3 : List Char :=
  ([43, 45, 58, 60, 62, 63, 33, 126, 96, 39, 34, 91, 93, 123, 125, 92, 124,
    64, 35, 36, 37, 94, 38, 42, 44]).map Char.ofNat

/-- `FORBIDDEN_CHARS` of `import_digivice_data.py`,
`import_digivice_npc_names.py` and `import_d3_data.py`: the D3 set plus
`=` (61). -/
def FORBIDDEN_CHARS_DIGIVICE : List Char :=
  ([43, 45, 58, 60, 62, 63, 33, 126, 96, 39, 34, 91, 93, 123, 125, 92, 124,
    64, 35, 36, 37, 94, 38, 42, 61, 44]).map Char.ofNat

/-- `any(c in FORBIDDEN_CHARS for c in name)`. -/
def hasForbidden (s forb : List Char) : Bool :=
  s.any (fun c => forb.contains c)

/-- Value of a hex digit character (`[0-9A-Fa-f]`), or `none`. -/
def hexVal? (c : Char) : Option Nat :=
  if 48 ≤ c.toNat ∧ c.toNat ≤ 57 then some (c.toNat - 48)
  else if 65 ≤ c.toNat ∧ c.toNat ≤ 70 then some (c.toNat - 55)
  else if 97 ≤ c.toNat ∧ c.toNat ≤ 102 then some (c.toNat - 87)
  else none

/-- `encode_to_codes(s)` from `import_d3_npc_names.py`: the string must be a
concatenation of `<XXXX>` tags (regex `<([0-9A-Fa-f]{4})>`); zero codes are
dropped; any failure to match (or any literal character) raises `ValueError`,
modelled as `none`. -/
def encode_to_codes : List Char → Option (List Nat)
  | [] => some []
  | c :: rest =>
    if c = '<' then
      match rest with
      | h1 :: h2 :: h3 :: h4 :: g :: rest2 =>
        match hexVal? h1, hexVal? h2, hexVal? h3, hexVal? h4 with
        | some d1, some d2, some d3, some d4 =>
          if g = '>' then
            let v := ((d1 * 16 + d2) * 16 + d3) * 16 + d4
            (encode_to_codes rest2).map
              (fun out => if v ≠ 0 then v :: out else out)
          else none
        | _, _, _, _ => none
      | _ => none
    else none

/-- `encode_tagstring_to_bytes`'s tag parse from `import_digivice_data.py` and
`import_digivice_npc_names.py`: like `encode_to_codes` but zero codes are
kept. -/
def encode_tag_codes_digivice : List Char → Option (List Nat)
  | [] => some []
  | c :: rest =>
    if c = '<' then
      match rest with
      | h1 :: h2 :: h3 :: h4 :: g :: rest2 =>
        match hexVal? h1, hexVal? h2, hexVal? h3, hexVal? h4 with
        | some d1, some d2, some d3, some d4 =>
          if g = '>' then
            let v := ((d1 * 16 + d2) * 16 + d3) * 16 + d4
            (encode_tag_codes_digivice rest2).map (fun out => v :: out)
          else none
        | _, _, _, _ => none
      | _ => none
    else none

/-- `encode_from_tagstring(s)` from `import_d3_data.py`: newline becomes
`0xF000`; `<Fhhh>` tags (regex `<F([0-9A-Fa-f]{3})>`, tried first) become
`0xF000 | value`; `<XXXX>` tags become their value with zero dropped;
anything else raises, modelled as `none`. -/
def encode_from_tagstring : List Char → Option (List Nat)
  | [] => some []
  | c :: rest =>
    if c = Char.ofNat 10 then
      (encode_from_tagstring rest).map (fun out => 0xF000 :: out)
    else if c = '<' then
      match rest with
      | h1 :: h2 :: h3 :: h4 :: g :: rest2 =>
        if h1 = 'F' ∧ g = '>' ∧ (hexVal? h2).isSome ∧ (hexVal? h3).isSome ∧
            (hexVal? h4).isSome then
          let v := 0xF000 + (((hexVal? h2).getD 0 * 16 + (hexVal? h3).getD 0)
            * 16 + (hexVal? h4).getD 0)
          (encode_from_tagstring rest2).map (fun out => v :: out)
        else
          match hexVal? h1, hexVal? h2, hexVal? h3, hexVal? h4 with
          | some d1, some d2, some d3, some d4 =>
            if g = '>' then
              let v := ((d1 * 16 + d2) * 16 + d3) * 16 + d4
              (encode_from_tagstring rest2).map
                (fun out => if v ≠ 0 then v :: out else out)
            else none
          | _, _, _, _ => none
      | _ => none
    else none

/-- `encode_bytes(codes)` / `encode_to_bytes` / `encode_tagstring_to_bytes`'s
serialisation: each code as a little-endian 16-bit word, then the `0x0000`
terminator.  (Every code produced by the tag parsers is below `0x10000`, so
`struct.pack("<H", c)` never raises.) -/
def encode_bytes (codes : List Nat) : List Nat :=
  codes.flatMap (fun c => [c % 256, c / 256 % 256]) ++ [0, 0]

/-- `string_capacity(ta, si)` from `import_d3_npc_names.py` (and, with an
explicit `max 0` that `Nat` subtraction already provides, `import_d3_data.py`):
bytes from this string's offset to the next string's offset, or to the end of
the view for the last string. -/
def string_capacity (offs : List Nat) (n viewLen si : Nat) : Nat :=
  let start := offs.getD si 0 * 2
  let e := if si + 1 < n then offs.getD (si + 1) 0 * 2 else viewLen
  e - start

/-- `decode_old_string(ta, si, fwd_rules)` from `import_d3_npc_names.py`:
decode the current string to its tag form, then apply the forward replacement
rules to obtain the visible name. -/
def decode_old_string (view : ByteBuf) (offs : List Nat) (si : Nat)
    (fwd : List (List Char × List Char)) : List Char :=
  applyRulesL (decode_string view (offs.getD si 0 * 2)).toList fwd

/-- The per-slot body of `main`'s update loop in `import_d3_npc_names.py`
(lines 246-284): skip when the slot index is out of range, on forbidden
characters, on a display-length mismatch with the decoded old name, on a tag
encoding error, or when the encoded bytes exceed the slot capacity; otherwise
overwrite `len(enc)` bytes at the slot's absolute offset.  Returns the new
buffer and whether the write happened (`changes += 1`). -/
def d3NpcNameStep (data : ByteBuf) (taBase : Nat) (view : ByteBuf) (n : Nat)
    (offs : List Nat) (si : Nat) (newName : List Char)
    (fwd inv : List (List Char × List Char)) : ByteBuf × Bool :=
  if si ≥ n then (data, false)
  else if hasForbidden newName FORBIDDEN_CHARS_D3 then (data, false)
  else
    let oldName := decode_old_string view offs si fwd
    if newName.length ≠ oldName.length then (data, false)
    else
      match encode_to_codes (applyRulesL newName inv) with
      | none => (data, false)
      | some codes =>
        let enc := encode_bytes codes
        let cap := string_capacity offs n view.size si
        if enc.length > cap then (data, false)
        else
          let writeOff := taBase + offs.getD si 0 * 2
          (pySetSlice data writeOff (writeOff + enc.length) enc, true)

/-- The per-row name-update body of `main` in `import_d3_data.py` (lines
308-331) under the default `--overflow error` policy: skip on forbidden
characters; a tag encoding error propagates (`ValueError` aborts the run,
modelled as `none`); when the encoded bytes exceed the capacity the row is
skipped; otherwise the slot is overwritten. -/
def d3DataNameStep (data : ByteBuf) (taBase : Nat) (view : ByteBuf) (n : Nat)
    (offs : List Nat) (si : Nat) (name : List Char)
    (inv : List (List Char × List Char)) : Option (ByteBuf × Bool) :=
  if hasForbidden name FORBIDDEN_CHARS_DIGIVICE then some (data, false)
  else
    match encode_from_tagstring (applyRulesL name inv) with
    | none => none
    | some codes =>
      let enc := encode_bytes codes
      let cap := string_capacity offs n view.size si
      if enc.length > cap then some (data, false)
      else
        let writeOff := taBase + offs.getD si 0 * 2
        some (pySetSlice data writeOff (writeOff + enc.length) enc, true)

/-- The per-row body of `main`'s update loop in
`import_digivice_npc_names.py` (lines 183-203; the name half of
`import_digivice_data.py` lines 197-213 is identical): skip on forbidden
characters, on a tag encoding error, or unless the encoded byte length equals
the occupied byte span `view[old_start:old_end]` exactly; otherwise overwrite
that span. -/
def digiviceNameStep (data : ByteBuf) (base_off : Nat) (view : ByteBuf)
    (n : Nat) (offs : List Nat) (si : Nat) (name : List Char)
    (rules : List (List Char × List Char)) : ByteBuf × Bool :=
  if hasForbidden name FORBIDDEN_CHARS_DIGIVICE then (data, false)
  else
    let old_start := offs.getD si 0 * 2
    let old_end := if si + 1 < n then offs.getD (si + 1) 0 * 2 else view.size
    let old_bytes := pySlice view old_start old_end
    match encode_tag_codes_digivice (applyRulesL name rules) with
    | none => (data, false)
    | some codes =>
      let enc := encode_bytes codes
      if enc.length ≠ old_bytes.size then (data, false)
      else
        (pySetSlice data (base_off + old_start)
          (base_off + old_start + enc.length) enc, true)

/-! ## Sprite package locator
Embedded from `export_sprites.py` (`parse_package`, `scan_for_package`),
`replace_sprites.py` (`robust_scan`) and `update_palette.py`
(`robust_scan`). -/

/-- `image_def`: 6 bytes. -/
structure ImageDef where
  sprite_start_index : Nat
  width : Nat
  height : Nat
  palette_start_index : Nat
deriving DecidableEq

/-- `sprite_def`: 8 bytes. -/
structure SpriteDef where
  charnum : Nat
  ox : Int
  oy : Int
  attr : Nat
deriving DecidableEq

/-- A parsed sprites package. -/
structure Package where
  img_defs_offset : Nat
  spr_defs_offset : Nat
  palettes_offset : Nat
  chars_offset : Nat
  images : List ImageDef
  sprites : List SpriteDef
  palette_words : List Nat
deriving DecidableEq

/-- The image-def table: `num` records of 6 bytes at `base`. -/
def parseImages (block : ByteBuf) (base num : Nat) : List ImageDef :=
  (List.range num).map (fun i =>
    let o := base + i * 6
    ⟨le16 block o, block.byte (o + 2), block.byte (o + 3), le16 block (o + 4)⟩)

/-- The sprite-def table: `num` records of 8 bytes at `base`. -/
def parseSprites (block : ByteBuf) (base num : Nat) : List SpriteDef :=
  (List.range num).map (fun i =>
    let o := base + i * 8
    ⟨le16 block o, se16 block (o + 2), se16 block (o + 4), le16 block (o + 6)⟩)

/-- The palette table: `num` little-endian words at `base`. -/
def parsePalette (block : ByteBuf) (base num : Nat) : List Nat :=
  (List.range num).map (fun i => le16 block (base + 2 * i))

/-- `parse_package(block)` from `export_sprites.py`: its `assert`s (offset
ordering/bounds and section strides) become `none` on failure, which the
caller's `except` treats the same way. -/
def parse_package (block : ByteBuf) : Option Package :=
  let img := le32 block 0
  let spr := le32 block 4
  let pal := le32 block 8
  let ch := le32 block 12
  if ¬ (0 < img ∧ img < spr ∧ spr < pal ∧ pal < ch ∧ ch ≤ block.size) then
    none
  else if ¬ ((spr - img) % 6 = 0 ∧ (pal - spr) % 8 = 0 ∧ (ch - pal) % 2 = 0)
  then none
  else
    some ⟨img, spr, pal, ch,
      parseImages block img ((spr - img) / 6),
      parseSprites block spr ((pal - spr) / 8),
      parsePalette block pal ((ch - pal) / 2)⟩

/-- The body of `scan_for_package`'s loop in `export_sprites.py` at one
candidate offset: the quick header checks (offset ordering and bounds,
strides, image count in `[500, 10000]`, at least 64 colors), the full parse
of the block `bin_data[off : off+chars+1_000_000]`, and the final sanity
check that the last image's `sprite_start_index` is below the sprite
count. -/
def sfpCandidate (buf : ByteBuf) (off : Nat) : Option (Nat × Package) :=
  let img := le32 buf off
  let spr := le32 buf (off + 4)
  let pal := le32 buf (off + 8)
  let ch := le32 buf (off + 12)
  if ¬ (0 < img ∧ img < spr ∧ spr < pal ∧ pal < ch ∧ ch ≤ buf.size - off) then
    none
  else if ¬ ((spr - img) % 6 = 0 ∧ (pal - spr) % 8 = 0 ∧ (ch - pal) % 2 = 0)
  then none
  else if (spr - img) / 6 < 500 ∨ (spr - img) / 6 > 10000 then none
  else if (ch - pal) / 2 < 64 then none
  else
    match parse_package (pySlice buf off (off + ch + 1000000)) with
    | none => none
    | some p =>
      match p.images.getLast? with
      | some im =>
        if im.sprite_start_index < (pal - spr) / 8 then some (off, p) else none
      | none => none

/-- `scan_for_package(bin_data)` from `export_sprites.py`: the loop `return`s
on the FIRST candidate that passes, i.e. the first `some` over the 4-aligned
offsets of `range(0, size-16, 4)`. -/
def scan_for_package (buf : ByteBuf) : Option (Nat × Package) :=
  (quadOffsets (buf.size - 16)).findSome? (sfpCandidate buf)

/-- The accept condition of `robust_scan`'s loop in `replace_sprites.py` at
one offset: ordering/bounds, strides, image count in `[1000, 5000]` (no
color-count check), the `parse_package` call (which cannot fail once the
checks above pass), and `images[-1].sprite_start_index < num_sprites`. -/
def rsPass (buf : ByteBuf) (off : Nat) : Bool :=
  let img := le32 buf off
  let spr := le32 buf (off + 4)
  let pal := le32 buf (off + 8)
  let ch := le32 buf (off + 12)
  if 0 < img ∧ img < spr ∧ spr < pal ∧ pal < ch ∧ ch ≤ buf.size - off then
    if (spr - img) % 6 = 0 ∧ (pal - spr) % 8 = 0 ∧ (ch - pal) % 2 = 0 then
      if 1000 ≤ (spr - img) / 6 ∧ (spr - img) / 6 ≤ 5000 then
        match (parseImages (pySlice buf off (off + ch + 1000000)) img
            ((spr - img) / 6)).getLast? with
        | some im => decide (im.sprite_start_index < (pal - spr) / 8)
        | none => false
      else false
    else false
  else false

/-- The accept condition of `robust_scan`'s loop in `update_palette.py`:
as in `replace_sprites.py`, except that the last image's
`sprite_start_index` is read directly with `le16` instead of through a full
parse. -/
def upPass (buf : ByteBuf) (off : Nat) : Bool :=
  let img := le32 buf off
  let spr := le32 buf (off + 4)
  let pal := le32 buf (off + 8)
  let ch := le32 buf (off + 12)
  if 0 < img ∧ img < spr ∧ spr < pal ∧ pal < ch ∧ ch ≤ buf.size - off then
    if (spr - img) % 6 = 0 ∧ (pal - spr) % 8 = 0 ∧ (ch - pal) % 2 = 0 then
      if 1000 ≤ (spr - img) / 6 ∧ (spr - img) / 6 ≤ 5000 then
        let block := pySlice buf off (off + ch + 1000000)
        decide (le16 block (img + ((spr - img) / 6 - 1) * 6) < (pal - spr) / 8)
      else false
    else false
  else false

/-- One iteration of the `best` accumulator of the two `robust_scan` loops:
a passing candidate replaces `best` when there is none yet or when its score
(`score = chars`) is strictly larger. -/
def bestStep (passes : Nat → Bool) (score : Nat → Nat)
    (best : Option (Nat × Nat)) (off : Nat) : Option (Nat × Nat) :=
  if passes off then
    match best with
    | none => some (score off, off)
    | some so => if score off > so.1 then some (score off, off) else some so
  else best

/-- The `best` accumulator loop of the two `robust_scan` functions. -/
def bestScan (cands : List Nat) (passes : Nat → Bool) (score : Nat → Nat) :
    Option (Nat × Nat) :=
  cands.foldl (bestStep passes score) none

/-- `robust_scan(data)` from `replace_sprites.py`, returning the winning
offset and its four header values (the Python version also returns the block
slice, recomputable as `pySlice buf off (off+chars+1_000_000)`); `none` for
the `RuntimeError` raised when nothing passes. -/
def robust_scan_replace (buf : ByteBuf) :
    Option (Nat × (Nat × Nat × Nat × Nat)) :=
  (bestScan (quadOffsets (buf.size - 16)) (rsPass buf)
      (fun off => le32 buf (off + 12))).map
    (fun so => (so.2, (le32 buf so.2, le32 buf (so.2 + 4),
      le32 buf (so.2 + 8), le32 buf (so.2 + 12))))

/-- `robust_scan(data)` from `update_palette.py` (same shape, different
accept condition). -/
def robust_scan_palette (buf : ByteBuf) :
    Option (Nat × (Nat × Nat × Nat × Nat)) :=
  (bestScan (quadOffsets (buf.size - 16)) (upPass buf)
      (fun off => le32 buf (off + 12))).map
    (fun so => (so.2, (le32 buf so.2, le32 buf (so.2 + 4),
      le32 buf (so.2 + 8), le32 buf (so.2 + 12))))

/-! ## Pixel packer / unpacker
Embedded from `replace_sprites.py` (`pack_bits_msb`) and
`export_sprites.py` (`decode_character`). -/

/-- The inner `while accbits >= 8` flush of `pack_bits_msb`: emit the top
byte (`(acc >> (accbits-8)) & 0xFF`), keep the remaining low bits.  The loop
removes 8 bits per round, so `accbits` itself is adequate structural fuel. -/
def flushGo : Nat → Nat → Nat → List Nat × Nat × Nat
  | 0, acc, accbits => ([], acc, accbits)
  | fuel + 1, acc, accbits =>
    if 8 ≤ accbits then
      let shift := accbits - 8
      let b := acc / 2 ^ shift % 256
      let r := flushGo fuel (acc % 2 ^ shift) (accbits - 8)
      (b :: r.1, r.2)
    else ([], acc, accbits)

/-- The flush loop with its fuel fixed to `accbits` (never exhausted). -/
def flushBytes (acc accbits : Nat) : List Nat × Nat × Nat :=
  flushGo accbits acc accbits

/-- The main loop of `pack_bits_msb`: consume exactly `count` values from the
index iterator (`next(it)` raises `StopIteration`, i.e. `none`, when the list
is too short), pushing `v & mask` MSB-first and flushing whole bytes. -/
def packGo (bpp : Nat) : Nat → List Nat → Nat → Nat →
    Option (List Nat × Nat × Nat)
  | 0, _, acc, accbits => some ([], acc, accbits)
  | _ + 1, [], _, _ => none
  | k + 1, v :: vs, acc, accbits =>
    let acc1 := acc * 2 ^ bpp + v % 2 ^ bpp
    let f := flushBytes acc1 (accbits + bpp)
    (packGo bpp k vs f.2.1 f.2.2).map
      (fun r => (f.1 ++ r.1, r.2))

/-- `pack_bits_msb(indexes, w, h, bpp)` from `replace_sprites.py`: pack
`w*h` values MSB-first, pad the final partial byte with low zero bits, and
normalise the output to exactly `nbytes = ceil(w*h*bpp/8)` bytes. -/
def pack_bits_msb (indexes : List Nat) (w h bpp : Nat) : Option (List Nat) :=
  let nbytes := (w * h * bpp + 7) / 8
  match packGo bpp (w * h) indexes 0 0 with
  | none => none
  | some (out, acc, accbits) =>
    let out2 :=
      if 0 < accbits then out ++ [acc * 2 ^ (8 - accbits) % 256] else out
    some (if out2.length ≠ nbytes then
            out2.take nbytes ++ List.replicate (nbytes - out2.length) 0
          else out2)

/-- The inner `while accbits >= bpp and len(vals) < w*h` extraction of
`decode_character`: take the top `bpp` bits as the next value. -/
def extractGo (bpp : Nat) : Nat → Nat → Nat → List Nat × Nat × Nat
  | acc, accbits, 0 => ([], acc, accbits)
  | acc, accbits, r + 1 =>
    if bpp ≤ accbits then
      let shift := accbits - bpp
      let val := acc / 2 ^ shift % 2 ^ bpp
      let e := extractGo bpp (acc % 2 ^ shift) (accbits - bpp) r
      (val :: e.1, e.2)
    else ([], acc, accbits)

/-- The per-byte loop of `decode_character`: shift each byte into the
accumulator and extract as many values as possible, up to `remaining`. -/
def unpackGo (bpp : Nat) : List Nat → Nat → Nat → Nat → List Nat
  | [], _, _, _ => []
  | b :: bs, acc, accbits, remaining =>
    let acc1 := acc * 256 + b
    let e := extractGo bpp acc1 (accbits + 8) remaining
    e.1 ++ unpackGo bpp bs e.2.1 e.2.2 (remaining - e.1.length)

/-- The bit-unpacking core of `decode_character` in `export_sprites.py`,
applied to a byte region: read bits MSB-first across byte boundaries
producing at most `w*h` values, then pad with zeros to exactly `w*h`. -/
def unpack_bits_msb (buf : List Nat) (w h bpp : Nat) : List Nat :=
  let vals := unpackGo bpp buf 0 0 (w * h)
  vals ++ List.replicate (w * h - vals.length) 0

/-- `unpack_attr(a)` (first five fields: color, flip, hsize, vsize,
palette). -/
def unpack_attr (a : Nat) : Nat × Nat × Nat × Nat × Nat :=
  (a % 4, a / 4 % 4, a / 16 % 4, a / 64 % 4, a / 256 % 16)

/-- `sprite_dims(attr)`: `(8 << hsize, 8 << vsize, color*2+2)`. -/
def sprite_dims (attr : Nat) : Nat × Nat × Nat :=
  (8 * 2 ^ (attr / 16 % 4), 8 * 2 ^ (attr / 64 % 4), attr % 4 * 2 + 2)

/-- `decode_character(block, chars_offset, charnum, attr)` from
`export_sprites.py`: slice the character's `nbytes` bytes (Python slicing
clamps when the source runs short) and unpack them. -/
def decode_character (block : ByteBuf) (chars_offset charnum attr : Nat) :
    Nat × Nat × List Nat :=
  let d := sprite_dims attr
  let nbytes := (d.1 * d.2.1 * d.2.2 + 7) / 8
  let off := chars_offset + charnum * nbytes
  let sub := pySlice block off (off + nbytes)
  (d.1, d.2.1, unpack_bits_msb ((List.range sub.size).map sub.byte) d.1 d.2.1 d.2.2)

/-- The per-tile write of `replace_sprites.py` `main` (lines 334-337):
`data[char_off : char_off + nbytes] = packed` with
`char_off = bin_chars_base + charnum * nbytes`,
`nbytes = (w*h*bpp + 7) // 8`.  No bounds check is performed before the
slice assignment. -/
def replaceTileWrite (data : ByteBuf) (binCharsBase charnum w h bpp : Nat)
    (packed : List Nat) : ByteBuf :=
  let nbytes := (w * h * bpp + 7) / 8
  let char_off := binCharsBase + charnum * nbytes
  pySetSlice data char_off (char_off + nbytes) packed

/-! ## GeneralPlus ADPCM codec
Embedded from `export_device_sounds.py` (`gp_adpcm_decode`) and
`import_device_sounds.py` (`gp_adpcm_encode`). -/

/-- The fixed 16-entry step table shared by encoder and decoder. -/
def step_table : List Nat :=
  [16, 17, 19, 21, 23, 25, 28, 31, 34, 37, 41, 45, 50, 55, 60, 66]

/-- The codec state: running predictor in `[-2047, 2047]` and step index in
`[0, 15]`, both 0 at stream start. -/
structure AdpcmState where
  predictor : Int
  step_index : Nat
deriving DecidableEq

/-- One nibble of `gp_adpcm_decode`: reconstruct the difference from the
nibble's bits, apply the sign, clamp the predictor, update and clamp the
step index, and emit `predictor * 16`. -/
def decodeNib (st : AdpcmState) (nib : Nat) : Int × AdpcmState :=
  let step := step_table.getD st.step_index 0
  let diff : Int := (step / 8 : Nat) +
    (if nib % 2 = 1 then ((step / 4 : Nat) : Int) else 0) +
    (if nib / 2 % 2 = 1 then ((step / 2 : Nat) : Int) else 0) +
    (if nib / 4 % 2 = 1 then (step : Int) else 0)
  let p1 := if nib / 8 % 2 = 1 then st.predictor - diff else st.predictor + diff
  let p2 := max (-2047) (min 2047 p1)
  let si := (max 0 (min 15 ((st.step_index : Int) + ((nib % 8 : Nat) : Int) - 4))).toNat
  (p2 * 16, ⟨p2, si⟩)

/-- The byte loop of `gp_adpcm_decode`: low nibble first, then high
nibble. -/
def gp_adpcm_decode_go (st : AdpcmState) : List Nat → List Int
  | [] => []
  | b :: bs =>
    let r1 := decodeNib st (b % 16)
    let r2 := decodeNib r1.2 (b / 16)
    r1.1 :: r2.1 :: gp_adpcm_decode_go r2.2 bs

/-- `gp_adpcm_decode(adpcm_bytes)` from `export_device_sounds.py`. -/
def gp_adpcm_decode (bytes : List Nat) : List Int :=
  gp_adpcm_decode_go ⟨0, 0⟩ bytes

/-- The PCM quantisation of `gp_adpcm_encode`:
`np.clip(pcm16 // 16, -2047, 2047)` (numpy `//` is floor division). -/
def pcmQuantize (x : Int) : Int :=
  max (-2047) (min 2047 (Int.fdiv x 16))

/-- One sample of `gp_adpcm_encode`: greedy sign-magnitude quantisation of
`sample - predictor` against the current step, with the predictor updated by
the reconstructed contribution (not the original difference) so encoder and
decoder stay bit-exact. -/
def encodeNib (st : AdpcmState) (sample : Int) : Nat × AdpcmState :=
  let diff := sample - st.predictor
  let sign := diff < 0
  let ad := if sign then -diff else diff
  let step := step_table.getD st.step_index 0
  let b4 := (step : Int) ≤ ad
  let ad1 := if b4 then ad - step else ad
  let c1 : Int := if b4 then ((step / 8 : Nat) : Int) + step
    else ((step / 8 : Nat) : Int)
  let b2 := ((step / 2 : Nat) : Int) ≤ ad1
  let ad2 := if b2 then ad1 - (step / 2 : Nat) else ad1
  let c2 := if b2 then c1 + ((step / 2 : Nat) : Int) else c1
  let b1 := ((step / 4 : Nat) : Int) ≤ ad2
  let c3 := if b1 then c2 + ((step / 4 : Nat) : Int) else c2
  let nib := (if sign then 8 else 0) + (if b4 then 4 else 0) +
    (if b2 then 2 else 0) + (if b1 then 1 else 0)
  let p1 := if sign then st.predictor - c3 else st.predictor + c3
  let p2 := max (-2047) (min 2047 p1)
  let si := (max 0 (min 15 ((st.step_index : Int) + ((nib % 8 : Nat) : Int) - 4))).toNat
  (nib, ⟨p2, si⟩)

/-- The nibble stream of the encoder over already-quantised samples. -/
def encNibsGo (st : AdpcmState) : List Int → List Nat
  | [] => []
  | q :: qs =>
    let r := encodeNib st q
    r.1 :: encNibsGo r.2 qs

/-- Pack two nibbles per byte, low then high, padding a trailing odd nibble
with a zero high nibble. -/
def packNibblesLoHi : List Nat → List Nat
  | [] => []
  | [lo] => [lo % 16]
  | lo :: hi :: rest => (lo % 16 + 16 * (hi % 16)) :: packNibblesLoHi rest

/-- `gp_adpcm_encode(pcm16)` from `import_device_sounds.py` (with the default
zero initial state). -/
def gp_adpcm_encode (pcm : List Int) : List Nat :=
  packNibblesLoHi (encNibsGo ⟨0, 0⟩ (pcm.map pcmQuantize))

/-- The encoder's own reconstructed signal: the clamped predictor after each
sample, scaled by 16 — exactly what the decoder will reproduce. -/
def encTraceGo (st : AdpcmState) : List Int → List Int
  | [] => []
  | q :: qs =>
    let r := encodeNib st q
    r.2.predictor * 16 :: encTraceGo r.2 qs

/-- The reconstruction trace of `gp_adpcm_encode` on a PCM buffer. -/
def gp_adpcm_encode_trace (pcm : List Int) : List Int :=
  encTraceGo ⟨0, 0⟩ (pcm.map pcmQuantize)

/-! ## Digivice partner power update
Embedded from `import_digivice_data.py` `main` (lines 185-195). -/

/-- `BASE_STATS` of `import_digivice_data.py`. -/
def BASE_STATS : Nat := 0x97F2A

/-- `RECORD_SIZE` of `import_digivice_data.py`. -/
def RECORD_SIZE : Nat := 10

/-- `MAX_POWER` of `import_digivice_data.py`. -/
def MAX_POWER : Int := 225

/-- `struct.pack_into("<H", data, off, v)`: raises `struct.error` (`none`)
unless `0 <= v <= 0xFFFF` and the two bytes fit in the buffer; otherwise
writes `v` little-endian in place. -/
def pyPackIntoU16 (data : ByteBuf) (off : Nat) (v : Int) : Option ByteBuf :=
  if v < 0 ∨ 65535 < v then none
  else if data.size < off + 2 then none
  else
    some ⟨data.size, fun i =>
      if i = off then v.toNat % 256
      else if i = off + 1 then v.toNat / 256 else data.byte i⟩

/-- The power half of `main`'s row loop in `import_digivice_data.py`:
`write_rec = BASE_STATS + (slot+1)*RECORD_SIZE` with `slot = SlotIndex - 1`,
i.e. `BASE_STATS + SlotIndex*RECORD_SIZE`; a power above `MAX_POWER` keeps
the old bytes, otherwise the value is packed in place. -/
def powerStep (data : ByteBuf) (slotIndex : Nat) (power : Int) :
    Option ByteBuf :=
  if power > MAX_POWER then some data
  else pyPackIntoU16 data (BASE_STATS + slotIndex * RECORD_SIZE) power

/-! ## Numeric views of bit streams (proof infrastructure for the packer) -/

/-- The big-endian numeric value of a byte list. -/
def bytesVal (bs : List Nat) : Nat :=
  bs.foldl (fun a b => a * 256 + b) 0

/-- The big-endian numeric value of a pixel-index list in base `2^bpp`
(each value masked to `bpp` bits, as the packer does). -/
def packVal (bpp : Nat) (vs : List Nat) : Nat :=
  vs.foldl (fun a v => a * 2 ^ bpp + v % 2 ^ bpp) 0

/-- The first `k` base-`2^bpp` digits of `acc`, reading `accbits` bits
MSB-first — the stream the unpacker consumes. -/
def topDigits (bpp : Nat) : Nat → Nat → Nat → List Nat
  | _, _, 0 => []
  | acc, accbits, k + 1 =>
    acc / 2 ^ (accbits - bpp) % 2 ^ bpp ::
      topDigits bpp (acc % 2 ^ (accbits - bpp)) (accbits - bpp) k

/-! ## Spec-side acceptance predicates
These two definitions follow the words of the (amended) name-update claim,
for comparison against the embedded program steps. -/

/-- Acceptance condition stated by the claim for the Digivice importers: the
name has no forbidden characters, its tag encoding succeeds, and the encoded
byte sequence is exactly as long as the occupied byte span from the slot's
offset to the next string's offset (or the section end). -/
def acceptDigiSpec (view : ByteBuf) (n : Nat) (offs : List Nat) (si : Nat)
    (name : List Char) (rules : List (List Char × List Char)) : Bool :=
  !(hasForbidden name FORBIDDEN_CHARS_DIGIVICE) &&
  (match encode_tag_codes_digivice (applyRulesL name rules) with
   | none => false
   | some codes =>
     decide ((encode_bytes codes).length =
       (pySlice view (offs.getD si 0 * 2)
         (if si + 1 < n then offs.getD (si + 1) 0 * 2 else view.size)).size))

/-- Acceptance condition of the D3 NPC name importer: the slot index is in
range, the name has no forbidden characters, its display length equals the
decoded old name's display length, its tag encoding succeeds, and the
encoded bytes fit (possibly strictly) within the slot capacity. -/
def acceptD3Spec (view : ByteBuf) (n : Nat) (offs : List Nat) (si : Nat)
    (newName : List Char) (fwd inv : List (List Char × List Char)) : Bool :=
  decide (si < n) &&
  !(hasForbidden newName FORBIDDEN_CHARS_D3) &&
  decide (newName.length = (decode_old_string view offs si fwd).length) &&
  (match encode_to_codes (applyRulesL newName inv) with
   | none => false
   | some codes =>
     decide ((encode_bytes codes).length ≤ string_capacity offs n view.size si))

/-! ## Concrete fixture buffers used by counterexamples and witnesses -/

/-- An all-zero buffer of the given size. -/
def zeroBuf (n : Nat) : ByteBuf := ⟨n, fun _ => 0⟩

/-- The end-to-end scenario-1 buffer: archive header `magic=0x3232`,
`count=1`, one entry `{flags=0, offset=20, comp_len=4, decomp_len=4}`,
followed at offset 20 by `count=1`, `offsets=[0]` and two zero bytes. -/
def c3buf : ByteBuf := listBuf
  [0x32, 0x32, 1, 0,
   0, 0, 0, 0,  20, 0, 0, 0,  4, 0, 0, 0,  4, 0, 0, 0,
   1, 0,  0, 0,  0, 0]

/-- A 41-byte buffer with a top-level archive at offset 0 whose single entry
has `flags = 1` (low nibble non-zero) and `offset = 21`, and a second valid
archive header at the odd offset 21 (so it is not found by the 2-aligned
top-level scan; its only route into the traversal is through the flagged
entry). -/
def c5buf : ByteBuf := listBuf
  [0x32, 0x32, 1, 0,
   1, 0, 0, 0,  21, 0, 0, 0,  0, 0, 0, 0,  0, 0, 0, 0,
   0,
   0x32, 0x32, 1, 0,
   0, 0, 0, 0,  0, 0, 0, 0,  0, 0, 0, 0,  0, 0, 0, 0]

/-- A 4-byte candidate view `count=1, offsets=[1]` whose single string
(starting at byte 2, word `0x0001`) has no zero terminator anywhere in the
view. -/
def c6view : ByteBuf := listBuf [1, 0, 1, 0]

/-- A 6-byte view `count=1, offsets=[1]` whose string (word `0x0001` then
`0x0000`) is properly terminated. -/
def c6viewOk : ByteBuf := listBuf [1, 0, 1, 0, 0, 0]

/-- A 14-byte text-archive view: `count=2`, word offsets `[3, 6]`; string 0
at byte 6 is the single code `0x0041` followed by its terminator and two
padding bytes (occupied span 6 bytes), string 1 at byte 12 is empty. -/
def c9view : ByteBuf := listBuf [2, 0, 3, 0, 6, 0, 0x41, 0, 0, 0, 0, 0, 0, 0]

/-- Forward replacement rules `<0041> -> A`, `<0042> -> B`. -/
def c9fwd : List (List Char × List Char) :=
  [((String.toList "<0041>"), ['A']), ((String.toList "<0042>"), ['B'])]

/-- The reversed rules `A -> <0041>`, `B -> <0042>`. -/
def c9inv : List (List Char × List Char) :=
  [(['A'], (String.toList "<0041>")), (['B'], (String.toList "<0042>"))]

/-- Header bytes for two overlapping sprite-package candidates: candidate A
at offset 0 with `(16, 3016, 3024, 3152)` (500 images, 1 sprite, 64 colors)
and candidate B at offset 16 with `(16, 3016, 3024, 3200)` (500 images, 1
sprite, 88 colors).  All other bytes are zero. -/
def c4bytes : List Nat :=
  [16, 0, 0, 0,  0xC8, 0x0B, 0, 0,  0xD0, 0x0B, 0, 0,  0x50, 0x0C, 0, 0,
   16, 0, 0, 0,  0xC8, 0x0B, 0, 0,  0xD0, 0x0B, 0, 0,  0x80, 0x0C, 0, 0]

/-- A 3216-byte buffer in which exactly offsets 0 and 16 pass
`scan_for_package`'s checks, with `chars = 3152` at offset 0 and
`chars = 3200` at offset 16. -/
def c4buf : ByteBuf := ⟨3216, fun i => c4bytes.getD i 0⟩

/-- Header bytes for a single `robust_scan` candidate at offset 0:
`(16, 6016, 6024, 6026)` — 1000 images, 1 sprite, 1 color. -/
def c4wBytes : List Nat :=
  [16, 0, 0, 0,  0x80, 0x17, 0, 0,  0x88, 0x17, 0, 0,  0x8A, 0x17, 0, 0]

/-- A 6042-byte buffer in which exactly offset 0 passes the `robust_scan`
checks of `replace_sprites.py` and `update_palette.py`. -/
def c4wbuf : ByteBuf := ⟨6042, fun i => c4wBytes.getD i 0⟩


/-! # Theorems

General-purpose lemmas first, then one theorem (with counterexample and
witness where applicable) per specification claim. -/

/-- The word serialisation doubles the code count. -/
theorem encode_pairs_length (codes : List Nat) :
    (codes.flatMap (fun c => [c % 256, c / 256 % 256])).length
      = 2 * codes.length := by
  induction codes with
  | nil => rfl
  | cons c cs ih =>
    simp only [List.flatMap_cons, List.length_append, List.length_cons,
      List.length_nil, ih]
    omega

/-- `encode_bytes` always emits `2*|codes| + 2` bytes (codes plus the 16-bit
terminator). -/
theorem encode_bytes_length (codes : List Nat) :
    (encode_bytes codes).length = 2 * codes.length + 2 := by
  simp only [encode_bytes, List.length_append, encode_pairs_length]
  rfl

/-- `isSome` through a guard that rejects. -/
theorem isSome_ite_none {α} (c : Prop) [Decidable c] (x : Option α) :
    (if c then (none : Option α) else x).isSome ↔ ¬c ∧ x.isSome := by
  split_ifs <;> simp_all

/-- `isSome` through a final accepting guard. -/
theorem isSome_ite_some {α} (c : Prop) [Decidable c] (x : α) :
    (if c then some x else (none : Option α)).isSome ↔ c := by
  split_ifs <;> simp_all

/-- `isSome` through a guard that accepts. -/
theorem isSome_ite_else_none {α} (c : Prop) [Decidable c] (x : Option α) :
    (if c then x else (none : Option α)).isSome ↔ c ∧ x.isSome := by
  split_ifs <;> simp_all

/-- A `bestStep` never lowers the held score. -/
theorem bestStep_mono (p : Nat → Bool) (sc : Nat → Nat)
    (off s o s0 o0 : Nat)
    (h : bestStep p sc (some (s0, o0)) off = some (s, o)) : s0 ≤ s := by
  unfold bestStep at h
  split_ifs at h with hp
  · simp only [] at h
    split_ifs at h with hgt
    · simp only [Option.some.injEq, Prod.mk.injEq] at h
      omega
    · simp only [Option.some.injEq, Prod.mk.injEq] at h
      omega
  · simp only [Option.some.injEq, Prod.mk.injEq] at h
    omega

/-- A `bestStep` never drops a held candidate. -/
theorem bestStep_isSome (p : Nat → Bool) (sc : Nat → Nat)
    (best : Option (Nat × Nat)) (off : Nat) (hb : best.isSome) :
    (bestStep p sc best off).isSome := by
  unfold bestStep
  cases best with
  | none => simp at hb
  | some so =>
    split_ifs with hp
    · simp only []
      split_ifs <;> simp
    · simp

/-- A `bestStep` result is the old candidate or the current passing offset
with its score. -/
theorem bestStep_cases (p : Nat → Bool) (sc : Nat → Nat)
    (best : Option (Nat × Nat)) (off s o : Nat)
    (h : bestStep p sc best off = some (s, o)) :
    best = some (s, o) ∨ (p o = true ∧ s = sc o ∧ o = off) := by
  unfold bestStep at h
  split_ifs at h with hp
  · cases best with
    | none =>
      simp only [Option.some.injEq, Prod.mk.injEq] at h
      right
      obtain ⟨hs, ho⟩ := h
      subst hs
      subst ho
      exact ⟨hp, rfl, rfl⟩
    | some so =>
      simp only [] at h
      split_ifs at h with hgt
      · simp only [Option.some.injEq, Prod.mk.injEq] at h
        right
        obtain ⟨hs, ho⟩ := h
        subst hs
        subst ho
        exact ⟨hp, rfl, rfl⟩
      · exact Or.inl h
  · exact Or.inl h

/-- Folding `bestStep` from a held candidate keeps some candidate and never
lowers the score. -/
theorem bestFold_mono (p : Nat → Bool) (sc : Nat → Nat) :
    ∀ (cands : List Nat) (s0 o0 : Nat),
      ∃ s o, cands.foldl (bestStep p sc) (some (s0, o0)) = some (s, o)
        ∧ s0 ≤ s := by
  intro cands
  induction cands with
  | nil => intro s0 o0; exact ⟨s0, o0, rfl, le_refl _⟩
  | cons c rest ih =>
    intro s0 o0
    simp only [List.foldl_cons]
    cases hstep : bestStep p sc (some (s0, o0)) c with
    | none =>
      exfalso
      have := bestStep_isSome p sc (some (s0, o0)) c (by simp)
      simp [hstep] at this
    | some so =>
      obtain ⟨s, o, hfin, hle⟩ := ih so.1 so.2
      refine ⟨s, o, by simpa using hfin, ?_⟩
      have := bestStep_mono p sc c so.1 so.2 s0 o0 (by simpa using hstep)
      omega

/-- The fold's final score dominates the score of every passing candidate. -/
theorem bestFold_max (p : Nat → Bool) (sc : Nat → Nat) :
    ∀ (cands : List Nat) (init : Option (Nat × Nat)) (x : Nat),
      x ∈ cands → p x = true →
      ∀ s o, cands.foldl (bestStep p sc) init = some (s, o) → sc x ≤ s := by
  intro cands
  induction cands with
  | nil => intro init x hx; simp at hx
  | cons c rest ih =>
    intro init x hx hp s o hfold
    simp only [List.foldl_cons] at hfold
    rcases List.mem_cons.mp hx with hxc | hxr
    · subst hxc
      have h1 : ∃ s1 o1, bestStep p sc init x = some (s1, o1) ∧ sc x ≤ s1 := by
        unfold bestStep
        rw [hp, if_pos rfl]
        cases init with
        | none => exact ⟨sc x, x, rfl, le_refl _⟩
        | some so =>
          simp only []
          by_cases hgt : so.1 < sc x
          · exact ⟨sc x, x, by rw [if_pos hgt], le_refl _⟩
          · exact ⟨so.1, so.2, by rw [if_neg hgt], by omega⟩
      obtain ⟨s1, o1, hstep, hle⟩ := h1
      rw [hstep] at hfold
      obtain ⟨s2, o2, hfin, hmono⟩ := bestFold_mono p sc rest s1 o1
      rw [hfin] at hfold
      simp only [Option.some.injEq, Prod.mk.injEq] at hfold
      omega
    · exact ih (bestStep p sc init c) x hxr hp s o hfold

/-- The fold's result, when some, is a passing candidate carrying its own
score (unless it is the unchanged initial value). -/
theorem bestFold_provenance (p : Nat → Bool) (sc : Nat → Nat) :
    ∀ (cands : List Nat) (init : Option (Nat × Nat)) (s o : Nat),
      cands.foldl (bestStep p sc) init = some (s, o) →
      init = some (s, o) ∨ (o ∈ cands ∧ p o = true ∧ s = sc o) := by
  intro cands
  induction cands with
  | nil => intro init s o h; exact Or.inl h
  | cons c rest ih =>
    intro init s o h
    simp only [List.foldl_cons] at h
    rcases ih (bestStep p sc init c) s o h with hstep | ⟨hmem, hp, hs⟩
    · rcases bestStep_cases p sc init c s o hstep with hinit | ⟨hp, hs, ho⟩
      · exact Or.inl hinit
      · exact Or.inr ⟨by simp [ho], hp, hs⟩
    · exact Or.inr ⟨by simp [hmem], hp, hs⟩

/-- A `bestScan` winner passes and has maximal score among passing
candidates. -/
theorem bestScan_spec (cands : List Nat) (p : Nat → Bool) (sc : Nat → Nat)
    (s o : Nat) (h : bestScan cands p sc = some (s, o)) :
    o ∈ cands ∧ p o = true ∧ s = sc o ∧
      ∀ x ∈ cands, p x = true → sc x ≤ sc o := by
  unfold bestScan at h
  rcases bestFold_provenance p sc cands none s o h with hbad | ⟨hmem, hp, hs⟩
  · cases hbad
  · subst hs
    exact ⟨hmem, hp, rfl,
      fun x hx hpx => bestFold_max p sc cands none x hx hpx _ o h⟩


/-! ### Numeric lemmas for the bit packer/unpacker -/


theorem mulAdd_lt {a b A B : Nat} (ha : a < A) (hb : b < B) : a * B + b < A * B := by
  calc a * B + b < a * B + B := by omega
    _ = (a + 1) * B := by ring
    _ ≤ A * B := Nat.mul_le_mul_right B ha

theorem bytesVal_foldl_shift :
    ∀ (l : List Nat) (X a : Nat),
      l.foldl (fun acc d => acc * 256 + d) (X + a)
        = X * 256 ^ l.length + l.foldl (fun acc d => acc * 256 + d) a := by
  intro l
  induction l with
  | nil => intro X a; simp
  | cons d l ih =>
    intro X a
    simp only [List.foldl_cons, List.length_cons]
    have h : (X + a) * 256 + d = X * 256 + (a * 256 + d) := by ring
    rw [h, ih (X * 256) (a * 256 + d)]
    ring

theorem packVal_foldl_shift (bpp : Nat) :
    ∀ (l : List Nat) (X a : Nat),
      l.foldl (fun acc v => acc * 2 ^ bpp + v % 2 ^ bpp) (X + a)
        = X * (2 ^ bpp) ^ l.length
          + l.foldl (fun acc v => acc * 2 ^ bpp + v % 2 ^ bpp) a := by
  intro l
  induction l with
  | nil => intro X a; simp
  | cons d l ih =>
    intro X a
    simp only [List.foldl_cons, List.length_cons]
    have h : (X + a) * 2 ^ bpp + d % 2 ^ bpp
        = X * 2 ^ bpp + (a * 2 ^ bpp + d % 2 ^ bpp) := by ring
    rw [h, ih (X * 2 ^ bpp) (a * 2 ^ bpp + d % 2 ^ bpp)]
    ring

theorem bytesVal_cons (b : Nat) (l : List Nat) :
    bytesVal (b :: l) = b * 256 ^ l.length + bytesVal l := by
  unfold bytesVal
  simp only [List.foldl_cons]
  have : (0 : Nat) * 256 + b = b + 0 := by ring
  rw [this, bytesVal_foldl_shift l b 0]

theorem bytesVal_append (l1 l2 : List Nat) :
    bytesVal (l1 ++ l2) = bytesVal l1 * 256 ^ l2.length + bytesVal l2 := by
  induction l1 with
  | nil => simp [bytesVal]
  | cons b l ih =>
    simp only [List.cons_append, bytesVal_cons, ih, List.length_append]
    rw [pow_add]
    ring

theorem bytesVal_lt (l : List Nat) (h : ∀ b ∈ l, b < 256) :
    bytesVal l < 256 ^ l.length := by
  induction l with
  | nil => simp [bytesVal]
  | cons b l ih =>
    rw [bytesVal_cons]
    have hb : b < 256 := h b (by simp)
    have hl : bytesVal l < 256 ^ l.length := ih (fun x hx => h x (by simp [hx]))
    calc b * 256 ^ l.length + bytesVal l < 256 * 256 ^ l.length := mulAdd_lt hb hl
      _ = 256 ^ (l.length + 1) := by rw [pow_succ]; ring
    
theorem packVal_cons (bpp v : Nat) (vs : List Nat) :
    packVal bpp (v :: vs) = v % 2 ^ bpp * (2 ^ bpp) ^ vs.length + packVal bpp vs := by
  unfold packVal
  simp only [List.foldl_cons]
  have : (0 : Nat) * 2 ^ bpp + v % 2 ^ bpp = v % 2 ^ bpp + 0 := by ring
  rw [this, packVal_foldl_shift bpp vs (v % 2 ^ bpp) 0]

theorem packVal_lt (bpp : Nat) (vs : List Nat) :
    packVal bpp vs < (2 ^ bpp) ^ vs.length := by
  induction vs with
  | nil => simp [packVal]
  | cons v vs ih =>
    rw [packVal_cons]
    have hv : v % 2 ^ bpp < 2 ^ bpp := Nat.mod_lt _ (Nat.pos_pow_of_pos bpp (by omega))
    calc v % 2 ^ bpp * (2 ^ bpp) ^ vs.length + packVal bpp vs
        < 2 ^ bpp * (2 ^ bpp) ^ vs.length := mulAdd_lt hv ih
      _ = (2 ^ bpp) ^ (vs.length + 1) := by rw [pow_succ]; ring

theorem mod_mul_split (A R s m : Nat) (hR : R < 2 ^ m) :
    (A * 2 ^ m + R) % 2 ^ (s + m) = A % 2 ^ s * 2 ^ m + R := by
  have h1 : A * 2 ^ m + R
      = A / 2 ^ s * 2 ^ (s + m) + (A % 2 ^ s * 2 ^ m + R) := by
    conv_lhs => rw [← Nat.div_add_mod A (2 ^ s)]
    rw [pow_add]
    ring
  rw [h1, Nat.mul_comm (A / 2 ^ s), Nat.mul_add_mod]
  exact Nat.mod_eq_of_lt (by
    have : A % 2 ^ s < 2 ^ s := Nat.mod_lt _ (Nat.pos_pow_of_pos s (by omega))
    calc A % 2 ^ s * 2 ^ m + R < 2 ^ s * 2 ^ m := mulAdd_lt this hR
      _ = 2 ^ (s + m) := (pow_add 2 s m).symm)

theorem div_mul_shift (A R s m : Nat) (hR : R < 2 ^ m) :
    (A * 2 ^ m + R) / 2 ^ (s + m) = A / 2 ^ s := by
  rw [pow_add, Nat.mul_comm (2 ^ s), ← Nat.div_div_eq_div_mul]
  congr 1
  rw [Nat.mul_comm, Nat.mul_add_div (Nat.pos_pow_of_pos m (by omega)),
    Nat.div_eq_of_lt hR]
  omega


theorem flushGo_spec :
    ∀ (fuel accbits acc : Nat), accbits ≤ fuel → acc < 2 ^ accbits →
    (flushGo fuel acc accbits).2.2 = accbits % 8 ∧
    (flushGo fuel acc accbits).2.1 < 2 ^ (accbits % 8) ∧
    bytesVal (flushGo fuel acc accbits).1 * 2 ^ (accbits % 8)
      + (flushGo fuel acc accbits).2.1 = acc ∧
    (flushGo fuel acc accbits).1.length = accbits / 8 ∧
    (∀ b ∈ (flushGo fuel acc accbits).1, b < 256) := by
  intro fuel
  induction fuel with
  | zero =>
    intro accbits acc hle hacc
    have hz : accbits = 0 := by omega
    subst hz
    exact ⟨rfl, hacc, by simp [flushGo, bytesVal], by simp [flushGo], by simp [flushGo]⟩
  | succ fuel ih =>
    intro accbits acc hle hacc
    simp only [flushGo]
    split_ifs with h8
    · -- accbits >= 8
      have hlef : accbits - 8 ≤ fuel := by omega
      have hsub : acc % 2 ^ (accbits - 8) < 2 ^ (accbits - 8) :=
        Nat.mod_lt _ (Nat.pos_pow_of_pos _ (by omega))
      obtain ⟨e1, e2, e3, e4, e5⟩ := ih (accbits - 8) (acc % 2 ^ (accbits - 8)) hlef hsub
      have hm : accbits % 8 = (accbits - 8) % 8 := by omega
      have hdivlt : acc / 2 ^ (accbits - 8) < 256 := by
        have hpow2 : 2 ^ accbits = 2 ^ (accbits - 8) * 256 := by
          have h256 : (256 : Nat) = 2 ^ 8 := by norm_num
          rw [h256, ← pow_add]
          congr 1
          omega
        rw [Nat.div_lt_iff_lt_mul (Nat.pos_pow_of_pos _ (by omega))]
        rw [hpow2] at hacc
        omega
      have hmod : acc / 2 ^ (accbits - 8) % 256 = acc / 2 ^ (accbits - 8) :=
        Nat.mod_eq_of_lt hdivlt
      simp only [hmod]
      refine ⟨by simpa [hm] using e1, by rw [hm]; exact (by simpa [hm] using e2), ?_, ?_, ?_⟩
      · -- reconstruction
        rw [bytesVal_cons]
        rw [e4]
        have hpow : 256 ^ ((accbits - 8) / 8) * 2 ^ ((accbits - 8) % 8)
            = 2 ^ (accbits - 8) := by
          have h256 : (256 : Nat) = 2 ^ 8 := by norm_num
          rw [h256, ← pow_mul, ← pow_add]
          congr 1
          omega
        calc (acc / 2 ^ (accbits - 8) * 256 ^ ((accbits - 8) / 8)
                + bytesVal (flushGo fuel (acc % 2 ^ (accbits - 8)) (accbits - 8)).1)
              * 2 ^ (accbits % 8)
              + (flushGo fuel (acc % 2 ^ (accbits - 8)) (accbits - 8)).2.1
            = acc / 2 ^ (accbits - 8) * (256 ^ ((accbits - 8) / 8) * 2 ^ ((accbits - 8) % 8))
              + (bytesVal (flushGo fuel (acc % 2 ^ (accbits - 8)) (accbits - 8)).1
                  * 2 ^ ((accbits - 8) % 8)
                + (flushGo fuel (acc % 2 ^ (accbits - 8)) (accbits - 8)).2.1) := by
              rw [hm]; ring
          _ = acc / 2 ^ (accbits - 8) * 2 ^ (accbits - 8) + acc % 2 ^ (accbits - 8) := by
              rw [hpow, e3]
          _ = 2 ^ (accbits - 8) * (acc / 2 ^ (accbits - 8))
              + acc % 2 ^ (accbits - 8) := by ring
          _ = acc := Nat.div_add_mod acc (2 ^ (accbits - 8))
      · simp only [List.length_cons, e4]
        omega
      · intro b hb
        rcases List.mem_cons.mp hb with hb1 | hb2
        · subst hb1; exact hdivlt
        · exact e5 b hb2
    · -- accbits < 8
      have : accbits % 8 = accbits := by omega
      rw [this]
      exact ⟨rfl, hacc, by simp [bytesVal], by simp; omega, by simp⟩

theorem flushBytes_spec :
    ∀ (accbits : Nat) (acc : Nat), acc < 2 ^ accbits →
    (flushBytes acc accbits).2.2 = accbits % 8 ∧
    (flushBytes acc accbits).2.1 < 2 ^ (accbits % 8) ∧
    bytesVal (flushBytes acc accbits).1 * 2 ^ (accbits % 8)
      + (flushBytes acc accbits).2.1 = acc ∧
    (flushBytes acc accbits).1.length = accbits / 8 ∧
    (∀ b ∈ (flushBytes acc accbits).1, b < 256) := by
  intro accbits acc hacc
  simpa only [flushBytes] using flushGo_spec accbits accbits acc (le_refl _) hacc



theorem packGo_spec (bpp : Nat) :
    ∀ (k : Nat) (vs : List Nat) (acc accbits : Nat),
      k ≤ vs.length → acc < 2 ^ accbits → accbits < 8 →
      ∃ out accF bitsF,
        packGo bpp k vs acc accbits = some (out, accF, bitsF) ∧
        bitsF = (accbits + k * bpp) % 8 ∧
        accF < 2 ^ bitsF ∧
        bytesVal out * 2 ^ bitsF + accF
          = (vs.take k).foldl (fun a v => a * 2 ^ bpp + v % 2 ^ bpp) acc ∧
        out.length = (accbits + k * bpp) / 8 ∧
        (∀ b ∈ out, b < 256) := by
  intro k
  induction k with
  | zero =>
    intro vs acc accbits _ hacc hlt
    refine ⟨[], acc, accbits, rfl, by omega, hacc, ?_, by simp; omega, by simp⟩
    simp [bytesVal]
  | succ k ih =>
    intro vs acc accbits hk hacc hlt
    cases vs with
    | nil => simp at hk
    | cons v vs' =>
      have hk' : k ≤ vs'.length := by
        simp only [List.length_cons] at hk
        omega
      have hacc1 : acc * 2 ^ bpp + v % 2 ^ bpp < 2 ^ (accbits + bpp) := by
        have hv : v % 2 ^ bpp < 2 ^ bpp :=
          Nat.mod_lt _ (Nat.pos_pow_of_pos bpp (by omega))
        calc acc * 2 ^ bpp + v % 2 ^ bpp
            < 2 ^ accbits * 2 ^ bpp := mulAdd_lt hacc hv
          _ = 2 ^ (accbits + bpp) := (pow_add 2 accbits bpp).symm
      obtain ⟨f1, f2, f3, f4, f5⟩ :=
        flushBytes_spec (accbits + bpp) (acc * 2 ^ bpp + v % 2 ^ bpp) hacc1
      set F := flushBytes (acc * 2 ^ bpp + v % 2 ^ bpp) (accbits + bpp) with hF
      have hb2lt : (accbits + bpp) % 8 < 8 := by omega
      obtain ⟨r, accF, bitsF, hrec, hr1, hr2, hr3, hr4, hr5⟩ :=
        ih vs' F.2.1 ((accbits + bpp) % 8) hk' f2 hb2lt
      have htklen : (vs'.take k).length = k := by
        rw [List.length_take]
        omega
      have hkb : (k + 1) * bpp = k * bpp + bpp := by ring
      have hbk : bpp * k = k * bpp := by ring
      refine ⟨F.1 ++ r, accF, bitsF, ?_, ?_, hr2, ?_, ?_, ?_⟩
      · simp only [packGo, ← hF]
        rw [f1, hrec]
        rfl
      · rw [hr1]
        omega
      · rw [bytesVal_append]
        rw [List.take_succ_cons, List.foldl_cons]
        have hshift : (vs'.take k).foldl (fun a v => a * 2 ^ bpp + v % 2 ^ bpp)
              (acc * 2 ^ bpp + v % 2 ^ bpp)
            = bytesVal F.1 * 2 ^ ((accbits + bpp) % 8) * (2 ^ bpp) ^ k
              + (vs'.take k).foldl (fun a v => a * 2 ^ bpp + v % 2 ^ bpp) F.2.1 := by
          conv_lhs => rw [← f3]
          rw [packVal_foldl_shift bpp (vs'.take k)
            (bytesVal F.1 * 2 ^ ((accbits + bpp) % 8)) F.2.1]
          rw [htklen]
        have hpow : 256 ^ r.length * 2 ^ bitsF
            = 2 ^ ((accbits + bpp) % 8) * (2 ^ bpp) ^ k := by
          have h256 : (256 : Nat) = 2 ^ 8 := by norm_num
          rw [h256, ← pow_mul, ← pow_add, ← pow_mul, ← pow_add]
          congr 1
          rw [hr4, hr1]
          omega
        calc (bytesVal F.1 * 256 ^ r.length + bytesVal r) * 2 ^ bitsF + accF
            = bytesVal F.1 * (256 ^ r.length * 2 ^ bitsF)
              + (bytesVal r * 2 ^ bitsF + accF) := by ring
          _ = bytesVal F.1 * (2 ^ ((accbits + bpp) % 8) * (2 ^ bpp) ^ k)
              + (vs'.take k).foldl (fun a v => a * 2 ^ bpp + v % 2 ^ bpp) F.2.1 := by
              rw [hpow, hr3]
          _ = (vs'.take k).foldl (fun a v => a * 2 ^ bpp + v % 2 ^ bpp)
              (acc * 2 ^ bpp + v % 2 ^ bpp) := by
              rw [hshift]
              ring
      · simp only [List.length_append, f4, hr4]
        omega
      · intro b hb
        rcases List.mem_append.mp hb with h1 | h2
        · exact f5 b h1
        · exact hr5 b h2


theorem pack_spec (w h bpp : Nat) (v : List Nat) (hlen : v.length = w * h) :
    ∃ bs, pack_bits_msb v w h bpp = some bs ∧
      bs.length = (w * h * bpp + 7) / 8 ∧
      (∀ b ∈ bs, b < 256) ∧
      bytesVal bs = packVal bpp v * 2 ^ (8 * ((w * h * bpp + 7) / 8) - w * h * bpp) := by
  obtain ⟨out, accF, bitsF, hgo, h1, h2, h3, h4, h5⟩ :=
    packGo_spec bpp (w * h) v 0 0 (by omega) (by norm_num) (by norm_num)
  have htake : v.take (w * h) = v := by
    rw [← hlen]
    exact List.take_length v
  rw [htake] at h3
  simp only [Nat.zero_add] at h1 h4
  unfold pack_bits_msb
  rw [hgo]
  by_cases hb0 : 0 < bitsF
  · -- a final partial byte is emitted
    have hbne : (w * h * bpp) % 8 ≠ 0 := by omega
    have hnb : (w * h * bpp + 7) / 8 = w * h * bpp / 8 + 1 := by omega
    have hlast : accF * 2 ^ (8 - bitsF) % 256 = accF * 2 ^ (8 - bitsF) := by
      apply Nat.mod_eq_of_lt
      have : accF * 2 ^ (8 - bitsF) < 2 ^ bitsF * 2 ^ (8 - bitsF) :=
        mul_lt_mul_of_pos_right h2 (Nat.pos_pow_of_pos _ (by omega))
      calc accF * 2 ^ (8 - bitsF) < 2 ^ bitsF * 2 ^ (8 - bitsF) := this
        _ = 2 ^ (bitsF + (8 - bitsF)) := (pow_add 2 _ _).symm
        _ ≤ 2 ^ 8 := by
            apply Nat.pow_le_pow_right (by norm_num)
            omega
        _ = 256 := by norm_num
    have hlen2 : (out ++ [accF * 2 ^ (8 - bitsF) % 256]).length
        = (w * h * bpp + 7) / 8 := by
      simp only [List.length_append, List.length_cons, List.length_nil, h4]
      omega
    refine ⟨out ++ [accF * 2 ^ (8 - bitsF) % 256], ?_, hlen2, ?_, ?_⟩
    · simp only [hb0, if_pos, if_true]
      rw [if_neg (by rw [hlen2]; exact fun hne => hne rfl)]
    · intro b hb
      rcases List.mem_append.mp hb with hb1 | hb2
      · exact h5 b hb1
      · simp only [List.mem_singleton] at hb2
        subst hb2
        rw [hlast]
        have : accF * 2 ^ (8 - bitsF) < 2 ^ bitsF * 2 ^ (8 - bitsF) :=
          mul_lt_mul_of_pos_right h2 (Nat.pos_pow_of_pos _ (by omega))
        calc accF * 2 ^ (8 - bitsF) < 2 ^ bitsF * 2 ^ (8 - bitsF) := this
          _ = 2 ^ (bitsF + (8 - bitsF)) := (pow_add 2 _ _).symm
          _ ≤ 2 ^ 8 := by
              apply Nat.pow_le_pow_right (by norm_num)
              omega
          _ = 256 := by norm_num
    · rw [bytesVal_append, hlast]
      have hone : bytesVal [accF * 2 ^ (8 - bitsF)] = accF * 2 ^ (8 - bitsF) := by
        simp [bytesVal]
      have hlen1 : ([accF * 2 ^ (8 - bitsF)] : List Nat).length = 1 := rfl
      rw [hone, hlen1, pow_one]
      have hpad : 8 * ((w * h * bpp + 7) / 8) - w * h * bpp = 8 - bitsF := by omega
      rw [hpad]
      unfold packVal
      rw [← h3]
      have h256e : (256 : Nat) = 2 ^ bitsF * 2 ^ (8 - bitsF) := by
        rw [← pow_add]
        have hb8 : bitsF + (8 - bitsF) = 8 := by omega
        rw [hb8]
        norm_num
      rw [h256e]
      ring
  · -- the packed bits end exactly on a byte boundary
    have hbz : bitsF = 0 := by omega
    subst hbz
    have haz : accF = 0 := by
      have := h2
      simp at this
      omega
    subst haz
    have hmod0 : (w * h * bpp) % 8 = 0 := by omega
    have hnb : (w * h * bpp + 7) / 8 = w * h * bpp / 8 := by omega
    refine ⟨out, ?_, by omega, h5, ?_⟩
    · simp only [Nat.lt_irrefl, if_false]
      rw [if_neg (by omega)]
    · have hpad : 8 * ((w * h * bpp + 7) / 8) - w * h * bpp = 0 := by omega
      rw [hpad, pow_zero, Nat.mul_one]
      unfold packVal
      rw [← h3, pow_zero, Nat.mul_one, Nat.add_zero]


theorem topDigits_length (bpp : Nat) :
    ∀ (k acc accbits : Nat), (topDigits bpp acc accbits k).length = k := by
  intro k
  induction k with
  | zero => intro acc accbits; rfl
  | succ k ih => intro acc accbits; simp only [topDigits, List.length_cons, ih]

theorem topDigits_shift (bpp : Nat) :
    ∀ (k t m A R : Nat), R < 2 ^ m → k * bpp ≤ t →
      topDigits bpp (A * 2 ^ m + R) (t + m) k = topDigits bpp A t k := by
  intro k
  induction k with
  | zero => intro t m A R _ _; rfl
  | succ k ih =>
    intro t m A R hR hk
    have hbt : bpp ≤ t := by
      have : 1 * bpp ≤ (k + 1) * bpp := Nat.mul_le_mul_right bpp (by omega)
      omega
    have hsub : t + m - bpp = (t - bpp) + m := by omega
    simp only [topDigits]
    rw [hsub]
    rw [div_mul_shift A R (t - bpp) m hR]
    rw [mod_mul_split A R (t - bpp) m hR]
    congr 1
    have hrec := ih (t - bpp) m (A % 2 ^ (t - bpp)) R hR (by
      have : (k + 1) * bpp = k * bpp + bpp := by ring
      omega)
    exact hrec

theorem topDigits_split (bpp : Nat) :
    ∀ (k1 j V T : Nat), V < 2 ^ T → k1 * bpp ≤ T →
      topDigits bpp V T (k1 + j)
        = topDigits bpp V T k1
          ++ topDigits bpp (V % 2 ^ (T - k1 * bpp)) (T - k1 * bpp) j := by
  intro k1
  induction k1 with
  | zero =>
    intro j V T hV _
    simp only [Nat.zero_add, Nat.zero_mul, Nat.sub_zero, topDigits, List.nil_append]
    rw [Nat.mod_eq_of_lt hV]
  | succ k1 ih =>
    intro j V T hV hk
    have hbT : bpp ≤ T := by
      have : 1 * bpp ≤ (k1 + 1) * bpp := Nat.mul_le_mul_right bpp (by omega)
      omega
    have hsucc : k1 + 1 + j = (k1 + j) + 1 := by omega
    rw [hsucc]
    simp only [topDigits, List.cons_append]
    congr 1
    have hmodlt : V % 2 ^ (T - bpp) < 2 ^ (T - bpp) :=
      Nat.mod_lt _ (Nat.pos_pow_of_pos _ (by omega))
    have hk1 : k1 * bpp ≤ T - bpp := by
      have : (k1 + 1) * bpp = k1 * bpp + bpp := by ring
      omega
    have hrec := ih j (V % 2 ^ (T - bpp)) (T - bpp) hmodlt hk1
    rw [hrec]
    congr 2
    · rw [Nat.mod_mod_of_dvd]
      · congr 2
        have : (k1 + 1) * bpp = k1 * bpp + bpp := by ring
        omega
      · apply pow_dvd_pow
        have : (k1 + 1) * bpp = k1 * bpp + bpp := by ring
        omega
    · have : (k1 + 1) * bpp = k1 * bpp + bpp := by ring
      omega


theorem topDigits_packVal (bpp : Nat) (hbpp : 0 < bpp) :
    ∀ vs : List Nat, (∀ x ∈ vs, x < 2 ^ bpp) →
      topDigits bpp (packVal bpp vs) (vs.length * bpp) vs.length = vs := by
  intro vs
  induction vs with
  | nil => intro _; rfl
  | cons v vs ih =>
    intro hvs
    have hv : v < 2 ^ bpp := hvs v (by simp)
    have hvmod : v % 2 ^ bpp = v := Nat.mod_eq_of_lt hv
    have hlt : packVal bpp vs < 2 ^ (vs.length * bpp) := by
      have := packVal_lt bpp vs
      rwa [← pow_mul, Nat.mul_comm bpp vs.length] at this
    rw [packVal_cons, hvmod, ← pow_mul, Nat.mul_comm bpp vs.length]
    have hlen : (v :: vs).length * bpp = vs.length * bpp + bpp := by
      simp only [List.length_cons]
      ring
    rw [hlen]
    simp only [topDigits, List.length_cons]
    have hm1 : vs.length * bpp + bpp - bpp = vs.length * bpp := by omega
    rw [hm1]
    have hdiv : (v * 2 ^ (vs.length * bpp) + packVal bpp vs) / 2 ^ (vs.length * bpp)
        = v := by
      rw [Nat.mul_comm v, Nat.mul_add_div (Nat.pos_pow_of_pos _ (by omega)),
        Nat.div_eq_of_lt hlt]
      omega
    have hmod : (v * 2 ^ (vs.length * bpp) + packVal bpp vs) % 2 ^ (vs.length * bpp)
        = packVal bpp vs := by
      rw [Nat.mul_comm v, Nat.mul_add_mod]
      exact Nat.mod_eq_of_lt hlt
    rw [hdiv, hmod, hvmod]
    congr 1
    exact ih (fun x hx => hvs x (by simp [hx]))

theorem extractGo_spec (bpp : Nat) (hbpp : 0 < bpp) :
    ∀ (r acc accbits : Nat), acc < 2 ^ accbits →
      extractGo bpp acc accbits r
        = (topDigits bpp acc accbits (min r (accbits / bpp)),
           acc % 2 ^ (accbits - min r (accbits / bpp) * bpp),
           accbits - min r (accbits / bpp) * bpp) := by
  intro r
  induction r with
  | zero =>
    intro acc accbits hacc
    simp only [extractGo, Nat.min_zero, Nat.zero_min, Nat.zero_mul, Nat.sub_zero,
      topDigits]
    rw [Nat.mod_eq_of_lt hacc]
  | succ r ih =>
    intro acc accbits hacc
    simp only [extractGo]
    split_ifs with hge
    · -- bpp ≤ accbits: one digit extracted, then recurse
      have hdivpos : 1 ≤ accbits / bpp := by
        rw [Nat.le_div_iff_mul_le hbpp]
        omega
      have hdivsub : (accbits - bpp) / bpp = accbits / bpp - 1 := by
        have h2 : (accbits - bpp + bpp) / bpp = (accbits - bpp) / bpp + 1 :=
          Nat.add_div_right _ hbpp
        have h3 : accbits - bpp + bpp = accbits := by omega
        rw [h3] at h2
        omega
      have hminsucc : min (r + 1) (accbits / bpp)
          = min r ((accbits - bpp) / bpp) + 1 := by
        rw [hdivsub]
        omega
      have hmodlt : acc % 2 ^ (accbits - bpp) < 2 ^ (accbits - bpp) :=
        Nat.mod_lt _ (Nat.pos_pow_of_pos _ (by omega))
      rw [ih (acc % 2 ^ (accbits - bpp)) (accbits - bpp) hmodlt]
      rw [hminsucc]
      simp only [topDigits]
      refine congrArg₂ _ rfl ?_
      have hsubs : accbits - bpp - min r ((accbits - bpp) / bpp) * bpp
          = accbits - (min r ((accbits - bpp) / bpp) + 1) * bpp := by
        have hx : (min r ((accbits - bpp) / bpp) + 1) * bpp
            = min r ((accbits - bpp) / bpp) * bpp + bpp := by ring
        omega
      have hmm : acc % 2 ^ (accbits - bpp)
            % 2 ^ (accbits - bpp - min r ((accbits - bpp) / bpp) * bpp)
          = acc % 2 ^ (accbits - bpp - min r ((accbits - bpp) / bpp) * bpp) := by
        apply Nat.mod_mod_of_dvd
        apply pow_dvd_pow
        omega
      rw [hmm, hsubs]
    · -- accbits < bpp: nothing extractable
      have hdiv0 : accbits / bpp = 0 := Nat.div_eq_of_lt (by omega)
      simp only [hdiv0, Nat.min_zero, Nat.zero_mul, Nat.sub_zero, topDigits]
      rw [Nat.mod_eq_of_lt hacc]


theorem unpackGo_spec (bpp : Nat) (hbpp : 0 < bpp) :
    ∀ (bs : List Nat) (acc accbits remaining : Nat),
      acc < 2 ^ accbits → (∀ b ∈ bs, b < 256) →
      (accbits < bpp ∨ remaining = 0) →
      unpackGo bpp bs acc accbits remaining
        = topDigits bpp (acc * 2 ^ (8 * bs.length) + bytesVal bs)
            (accbits + 8 * bs.length)
            (min remaining ((accbits + 8 * bs.length) / bpp)) := by
  intro bs
  induction bs with
  | nil =>
    intro acc accbits remaining hacc _ hinv
    have hk : min remaining ((accbits + 8 * ([] : List Nat).length) / bpp) = 0 := by
      rcases hinv with h | h
      · have : accbits / bpp = 0 := Nat.div_eq_of_lt h
        simp [this]
      · simp [h]
    rw [hk]
    rfl
  | cons b bs ih =>
    intro acc accbits remaining hacc hbytes hinv
    have hb : b < 256 := hbytes b (by simp)
    have hA1 : acc * 256 + b < 2 ^ (accbits + 8) := by
      calc acc * 256 + b < 2 ^ accbits * 256 := mulAdd_lt hacc hb
        _ = 2 ^ (accbits + 8) := by
          rw [pow_add]
          norm_num
    set k1 := min remaining ((accbits + 8) / bpp) with hk1def
    have hext := extractGo_spec bpp hbpp remaining (acc * 256 + b) (accbits + 8) hA1
    have hk1le : k1 ≤ remaining := Nat.min_le_left _ _
    have hk1div : k1 ≤ (accbits + 8) / bpp := Nat.min_le_right _ _
    have hk1bpp : k1 * bpp ≤ accbits + 8 :=
      (Nat.le_div_iff_mul_le hbpp).mp hk1div
    -- the state after the extraction round
    have hE1 : (extractGo bpp (acc * 256 + b) (accbits + 8) remaining).1
        = topDigits bpp (acc * 256 + b) (accbits + 8) k1 := by rw [hext]
    have hE21 : (extractGo bpp (acc * 256 + b) (accbits + 8) remaining).2.1
        = (acc * 256 + b) % 2 ^ (accbits + 8 - k1 * bpp) := by rw [hext]
    have hE22 : (extractGo bpp (acc * 256 + b) (accbits + 8) remaining).2.2
        = accbits + 8 - k1 * bpp := by rw [hext]
    have hE1len : (extractGo bpp (acc * 256 + b) (accbits + 8) remaining).1.length
        = k1 := by rw [hE1, topDigits_length]
    have hmodsub : accbits + 8 - (accbits + 8) / bpp * bpp = (accbits + 8) % bpp := by
      have hdm := Nat.div_add_mod (accbits + 8) bpp
      have hcm : bpp * ((accbits + 8) / bpp) = (accbits + 8) / bpp * bpp := by ring
      omega
    have hinv2 : accbits + 8 - k1 * bpp < bpp ∨ remaining - k1 = 0 := by
      by_cases hc : remaining ≤ (accbits + 8) / bpp
      · right
        have : k1 = remaining := by rw [hk1def]; omega
        omega
      · left
        have hk1eq : k1 = (accbits + 8) / bpp := by rw [hk1def]; omega
        rw [hk1eq, hmodsub]
        exact Nat.mod_lt _ hbpp
    have hmodlt : (acc * 256 + b) % 2 ^ (accbits + 8 - k1 * bpp)
        < 2 ^ (accbits + 8 - k1 * bpp) :=
      Nat.mod_lt _ (Nat.pos_pow_of_pos _ (by omega))
    -- unfold the program one step
    show (extractGo bpp (acc * 256 + b) (accbits + 8) remaining).1
        ++ unpackGo bpp bs (extractGo bpp (acc * 256 + b) (accbits + 8) remaining).2.1
            (extractGo bpp (acc * 256 + b) (accbits + 8) remaining).2.2
            (remaining - (extractGo bpp (acc * 256 + b) (accbits + 8) remaining).1.length)
        = _
    rw [hE1len, hE21, hE22, hE1]
    rw [ih ((acc * 256 + b) % 2 ^ (accbits + 8 - k1 * bpp))
      (accbits + 8 - k1 * bpp) (remaining - k1) hmodlt
      (fun x hx => hbytes x (by simp [hx])) hinv2]
    -- arithmetic on the digit counts
    have hTdiv : (accbits + 8 * (b :: bs).length) / bpp
        = k1 + (accbits + 8 - k1 * bpp + 8 * bs.length) / bpp := by
      have h0 : accbits + 8 * (b :: bs).length
          = bpp * k1 + (accbits + 8 - k1 * bpp + 8 * bs.length) := by
        simp only [List.length_cons]
        have hcm : bpp * k1 = k1 * bpp := by ring
        omega
      rw [h0, Nat.mul_add_div hbpp]
    have hK : min remaining ((accbits + 8 * (b :: bs).length) / bpp)
        = k1 + min (remaining - k1)
            ((accbits + 8 - k1 * bpp + 8 * bs.length) / bpp) := by
      rw [hTdiv]
      omega
    rw [hK]
    -- the combined value seen by the specification
    have hVeq : acc * 2 ^ (8 * (b :: bs).length) + bytesVal (b :: bs)
        = (acc * 256 + b) * 2 ^ (8 * bs.length) + bytesVal bs := by
      rw [bytesVal_cons]
      have h256 : (256 : Nat) ^ bs.length = 2 ^ (8 * bs.length) := by
        have : (256 : Nat) = 2 ^ 8 := by norm_num
        rw [this, ← pow_mul]
      have h2exp : 2 ^ (8 * (b :: bs).length) = 2 ^ 8 * 2 ^ (8 * bs.length) := by
        rw [← pow_add]
        congr 1
        simp only [List.length_cons]
        ring
      rw [h256, h2exp]
      ring
    rw [hVeq]
    have hR : bytesVal bs < 2 ^ (8 * bs.length) := by
      have hlt := bytesVal_lt bs (fun x hx => hbytes x (by simp [hx]))
      have h256 : (256 : Nat) ^ bs.length = 2 ^ (8 * bs.length) := by
        have h2 : (256 : Nat) = 2 ^ 8 := by norm_num
        rw [h2, ← pow_mul]
      rwa [h256] at hlt
    have hVlt : (acc * 256 + b) * 2 ^ (8 * bs.length) + bytesVal bs
        < 2 ^ (accbits + 8 + 8 * bs.length) := by
      calc (acc * 256 + b) * 2 ^ (8 * bs.length) + bytesVal bs
          < 2 ^ (accbits + 8) * 2 ^ (8 * bs.length) := mulAdd_lt hA1 hR
        _ = 2 ^ (accbits + 8 + 8 * bs.length) := (pow_add 2 _ _).symm
    have hTexp : accbits + 8 * (b :: bs).length = accbits + 8 + 8 * bs.length := by
      simp only [List.length_cons]
      ring
    rw [hTexp]
    have hsplit := topDigits_split bpp k1
      (min (remaining - k1) ((accbits + 8 - k1 * bpp + 8 * bs.length) / bpp))
      ((acc * 256 + b) * 2 ^ (8 * bs.length) + bytesVal bs)
      (accbits + 8 + 8 * bs.length) hVlt (by omega)
    rw [hsplit]
    congr 1
    · -- the digits extracted this round ignore the later bytes
      have := topDigits_shift bpp k1 (accbits + 8) (8 * bs.length)
        (acc * 256 + b) (bytesVal bs) hR hk1bpp
      rw [this]
    · -- the remaining digits come from the reduced state plus the later bytes
      have hsub2 : accbits + 8 + 8 * bs.length - k1 * bpp
          = accbits + 8 - k1 * bpp + 8 * bs.length := by omega
      rw [hsub2]
      rw [mod_mul_split (acc * 256 + b) (bytesVal bs)
        (accbits + 8 - k1 * bpp) (8 * bs.length) hR]




/-! ### ADPCM codec lemmas -/

/-- Decoding the nibble the encoder just emitted, from the same state,
reconstructs exactly the encoder's new predictor (times 16) and state: the
decoder's bit-weighted difference equals the encoder's accumulated
contribution, and both apply identical sign, clamp and step-index updates. -/
theorem decodeNib_encodeNib (st : AdpcmState) (q : Int) :
    decodeNib st (encodeNib st q).1
      = ((encodeNib st q).2.predictor * 16, (encodeNib st q).2) := by
  obtain ⟨P, S⟩ := st
  simp only [encodeNib]
  split_ifs with hsign hb4 hb2 hb1 <;>
  · try norm_num
    try simp only [decodeNib]
    try norm_num
    try simp only [Prod.mk.injEq, AdpcmState.mk.injEq]
    try refine ⟨?_, ?_, ?_⟩
    all_goals omega

/-- Encoder nibbles are 4-bit values. -/
theorem encodeNib_lt16 (st : AdpcmState) (q : Int) : (encodeNib st q).1 < 16 := by
  simp only [encodeNib]
  split_ifs <;> norm_num

/-- Decoding the packed nibble stream of an even-length quantised sample list
reproduces the encoder's predictor trace, from any starting state. -/
theorem adpcm_pair_round : ∀ (qs : List Int) (st : AdpcmState),
    qs.length % 2 = 0 →
    gp_adpcm_decode_go st (packNibblesLoHi (encNibsGo st qs)) = encTraceGo st qs
  | [], _, _ => rfl
  | [_], _, h => by simp at h
  | q1 :: q2 :: rest, st, h => by
    have h2 : rest.length % 2 = 0 := by
      simp only [List.length_cons] at h
      omega
    have hn1 : (encodeNib st q1).1 < 16 := encodeNib_lt16 st q1
    have hn2 : (encodeNib (encodeNib st q1).2 q2).1 < 16 :=
      encodeNib_lt16 (encodeNib st q1).2 q2
    simp only [encNibsGo, packNibblesLoHi, gp_adpcm_decode_go, encTraceGo]
    rw [show ((encodeNib st q1).1 % 16
          + 16 * ((encodeNib (encodeNib st q1).2 q2).1 % 16)) % 16
        = (encodeNib st q1).1 from by omega]
    rw [show ((encodeNib st q1).1 % 16
          + 16 * ((encodeNib (encodeNib st q1).2 q2).1 % 16)) / 16
        = (encodeNib (encodeNib st q1).2 q2).1 from by omega]
    rw [decodeNib_encodeNib st q1]
    simp only [Prod.fst, Prod.snd]
    rw [decodeNib_encodeNib (encodeNib st q1).2 q2]
    simp only [Prod.fst, Prod.snd]
    rw [adpcm_pair_round rest (encodeNib (encodeNib st q1).2 q2).2 h2]

/-! ### Claim C1 -/

/-- C1: the claim states that every import/patch operation (SPF2ALP audio
reimport, NPC name patch, sprite character-data replacement) writes a ROM
buffer of exactly the input's byte length.  The audio and name flows uphold
this, but the sprite tile write of `replace_sprites.py` performs
`data[char_off:char_off+nbytes] = packed` with no bounds check: when
`char_off = bin_chars_base + charnum*nbytes` lies past the end of the buffer
(reachable, since `charnum` is an arbitrary 16-bit field read from the ROM),
Python `bytearray` slice assignment appends, growing the file.  This theorem
evaluates the modelled tile write at such a failing input: a 32-byte buffer,
chars base 20, `charnum = 5`, an 8x8 2bpp tile (16 packed bytes, so
`char_off = 100`), after which the buffer has 48 bytes.  The claim (and the
spec's size-invariance contract) is the evident intent, so this is a code
bug, not a spec error. -/
theorem C1_sprite_tile_write_grows_buffer :
    (replaceTileWrite (zeroBuf 32) 20 5 8 8 2
        ((pack_bits_msb (List.replicate 64 0) 8 8 2).getD [])).size = 48 ∧
    (zeroBuf 32).size = 32 := by
  constructor
  · decide
  · decide

/-! ### Claim C2 -/

/-- C2: for every name slot of byte capacity `C` and every proposed name
whose encoded byte sequence (16-bit codes plus the 16-bit zero terminator,
i.e. `2*|codes| + 2` bytes) is strictly longer than `C`, the importers under
the reject policy perform no write for that slot and return the buffer
unchanged: the per-slot step of `import_d3_npc_names.py` and the per-row
name step of `import_d3_data.py` (default `--overflow error`) both skip
before any byte is overwritten. -/
theorem C2_reject_policy_preserves_buffer :
    (∀ (data : ByteBuf) (taBase : Nat) (view : ByteBuf) (n : Nat)
        (offs : List Nat) (si : Nat) (newName : List Char)
        (fwd inv : List (List Char × List Char)) (codes : List Nat),
      encode_to_codes (applyRulesL newName inv) = some codes →
      string_capacity offs n view.size si < 2 * codes.length + 2 →
      d3NpcNameStep data taBase view n offs si newName fwd inv
        = (data, false)) ∧
    (∀ (data : ByteBuf) (taBase : Nat) (view : ByteBuf) (n : Nat)
        (offs : List Nat) (si : Nat) (name : List Char)
        (inv : List (List Char × List Char)) (codes : List Nat),
      encode_from_tagstring (applyRulesL name inv) = some codes →
      string_capacity offs n view.size si < 2 * codes.length + 2 →
      d3DataNameStep data taBase view n offs si name inv
        = some (data, false)) := by
  constructor
  · intro data taBase view n offs si newName fwd inv codes henc hcap
    simp only [d3NpcNameStep, henc, encode_bytes_length]
    split_ifs <;> first | rfl | omega
  · intro data taBase view n offs si name inv codes henc hcap
    simp only [d3DataNameStep, henc, encode_bytes_length]
    split_ifs <;> first | rfl | omega

/-- Witness for C2: a concrete slot of capacity 0 (equal consecutive word
offsets) rejects the empty name, whose encoding is the 2-byte terminator
alone, leaving the buffer untouched in both importers. -/
theorem C2_reject_policy_preserves_buffer_witness :
    d3NpcNameStep (zeroBuf 32) 0 (zeroBuf 0) 2 [3, 3] 0 [] [] []
      = (zeroBuf 32, false) ∧
    d3DataNameStep (zeroBuf 32) 0 (zeroBuf 0) 2 [3, 3] 0 [] []
      = some (zeroBuf 32, false) :=
  ⟨C2_reject_policy_preserves_buffer.1 (zeroBuf 32) 0 (zeroBuf 0) 2 [3, 3] 0
      [] [] [] [] (by decide) (by decide),
   C2_reject_policy_preserves_buffer.2 (zeroBuf 32) 0 (zeroBuf 0) 2 [3, 3] 0
      [] [] [] (by decide) (by decide)⟩

/-! ### Claim C3 -/

/-- C3 counterexample: on the end-to-end scenario-1 buffer the scanner does
discover the archive and the entry does validate as a text archive, but
decoding string index 0 yields `"<0001>"` — not the empty string the claim
asserts.  String 0's word offset is 0, which points back at the archive's own
`count = 1` header word; `decode_string` renders it as the tag `<0001>` and
only then hits the zero word. -/
theorem C3_empty_string_refuted :
    iter_all_archives c3buf 3 = [("off=0x0", ⟨0, 1, [⟨0, 20, 4, 4⟩]⟩)] ∧
    is_probable_text_archive (pySlice c3buf 20 24) = some ⟨1, [0]⟩ ∧
    decode_string (pySlice c3buf 20 24) 0 ≠ "" := by
  refine ⟨by decide, by decide, by decide⟩

/-- C3 (amended): on the scenario-1 buffer the archive scanner discovers
exactly the archive at offset 0 with entry `{flags=0, offset=20, comp_len=4,
decomp_len=4}`, the entry's 4-byte view validates as a text archive with
`count=1, offsets=[0]`, and decoding string index 0 yields `"<0001>"` (the
count word read back as a glyph tag), not the empty string. -/
theorem C3_scenario_decodes_to_count_tag :
    iter_all_archives c3buf 3 = [("off=0x0", ⟨0, 1, [⟨0, 20, 4, 4⟩]⟩)] ∧
    is_probable_text_archive (pySlice c3buf 20 24) = some ⟨1, [0]⟩ ∧
    decode_string (pySlice c3buf 20 24) 0 = "<0001>" := by
  refine ⟨by decide, by decide, by decide⟩

/-! ### Claim C4 -/

/-- C4 counterexample: on a 3216-byte buffer both offsets 0 and 16 pass
`scan_for_package`'s checks, with `chars = 3152` at offset 0 and
`chars = 3200` at offset 16, yet the scan returns offset 0 — the FIRST
passing candidate, not the `chars`-maximal one.  The claim is therefore
false of `export_sprites.py`. -/
theorem C4_scan_for_package_not_maximal :
    (sfpCandidate c4buf 0).isSome ∧ (sfpCandidate c4buf 16).isSome ∧
    le32 c4buf 12 = 3152 ∧ le32 c4buf (16 + 12) = 3200 ∧
    (scan_for_package c4buf).map Prod.fst = some 0 := by
  refine ⟨by decide, by decide, by decide, by decide, by decide⟩

/-- C4 (amended): the two `robust_scan` functions (`replace_sprites.py` and
`update_palette.py`) do return a candidate maximising `chars` (the score)
among all passing 4-aligned offsets, for every buffer on which they return
at all. -/
theorem C4_robust_scan_prefers_max_chars :
    (∀ (buf : ByteBuf) (off : Nat) (rest : Nat × Nat × Nat × Nat),
      robust_scan_replace buf = some (off, rest) →
      rsPass buf off = true ∧
        ∀ o ∈ quadOffsets (buf.size - 16), rsPass buf o = true →
          le32 buf (o + 12) ≤ le32 buf (off + 12)) ∧
    (∀ (buf : ByteBuf) (off : Nat) (rest : Nat × Nat × Nat × Nat),
      robust_scan_palette buf = some (off, rest) →
      upPass buf off = true ∧
        ∀ o ∈ quadOffsets (buf.size - 16), upPass buf o = true →
          le32 buf (o + 12) ≤ le32 buf (off + 12)) := by
  constructor
  · intro buf off rest h
    unfold robust_scan_replace at h
    rw [Option.map_eq_some'] at h
    obtain ⟨so, hscan, hf⟩ := h
    have hoff : so.2 = off := congrArg Prod.fst hf
    obtain ⟨hmem, hp, hs, hmax⟩ :=
      bestScan_spec (quadOffsets (buf.size - 16)) (rsPass buf)
        (fun o => le32 buf (o + 12)) so.1 so.2 (by rw [← hscan])
    subst hoff
    exact ⟨hp, hmax⟩
  · intro buf off rest h
    unfold robust_scan_palette at h
    rw [Option.map_eq_some'] at h
    obtain ⟨so, hscan, hf⟩ := h
    have hoff : so.2 = off := congrArg Prod.fst hf
    obtain ⟨hmem, hp, hs, hmax⟩ :=
      bestScan_spec (quadOffsets (buf.size - 16)) (upPass buf)
        (fun o => le32 buf (o + 12)) so.1 so.2 (by rw [← hscan])
    subst hoff
    exact ⟨hp, hmax⟩

/-- Witness for C4: on the 6042-byte fixture both robust scans return
offset 0, which passes and maximises the score. -/
theorem C4_robust_scan_prefers_max_chars_witness :
    (rsPass c4wbuf 0 = true ∧
      ∀ o ∈ quadOffsets (c4wbuf.size - 16), rsPass c4wbuf o = true →
        le32 c4wbuf (o + 12) ≤ le32 c4wbuf (0 + 12)) ∧
    (upPass c4wbuf 0 = true ∧
      ∀ o ∈ quadOffsets (c4wbuf.size - 16), upPass c4wbuf o = true →
        le32 c4wbuf (o + 12) ≤ le32 c4wbuf (0 + 12)) :=
  ⟨C4_robust_scan_prefers_max_chars.1 c4wbuf 0 (16, 6016, 6024, 6026) (by decide),
   C4_robust_scan_prefers_max_chars.2 c4wbuf 0 (16, 6016, 6024, 6026) (by decide)⟩

/-! ### Claim C5 -/

/-- C5 counterexample: the traversal yields a nested archive whose only
route from a top-level archive passes through an entry with
`flags & 0xF = 1 ≠ 0`.  On `c5buf`, the only top-level archive (key
`off=0x0`) has a single entry with `flags = 1` pointing at the odd offset
21 (invisible to the 2-aligned top scan), and the nested archive there is
still yielded as `off=0x0/idx=0`: the loop applies no flags condition. -/
theorem C5_compressed_entry_recursed :
    ("off=0x0/idx=0", (⟨21, 1, [⟨0, 0, 0, 0⟩]⟩ : Archive))
        ∈ iter_all_archives c5buf 3 ∧
    is_probable_tama_archive c5buf 0 = some ⟨0, 1, [⟨1, 21, 0, 0⟩]⟩ ∧
    (archTops c5buf).map Prod.fst = ["off=0x0"] ∧
    (1 : Nat) % 16 ≠ 0 := by
  refine ⟨by decide, by decide, by decide, by decide⟩

/-- C5 (amended): the traversal recurses into EVERY entry of a yielded
archive whose absolute offset validates as an archive header, regardless of
the entry's `flags`: any such child is yielded at the next depth under key
`path ++ "/idx=" ++ i`. -/
theorem C5_traversal_recurses_regardless_of_flags :
    ∀ (buf : ByteBuf) (maxd d : Nat) (p : String) (a : Archive) (i : Nat)
      (e : ArchEntry) (sub : Archive), d < maxd →
      (p, a) ∈ archLevel buf d → a.entries.get? i = some e →
      is_probable_tama_archive buf (a.base_off + e.offset) = some sub →
      (p ++ "/idx=" ++ toString i, sub) ∈ iter_all_archives buf maxd := by
  intro buf maxd d p a i e sub hd hmem hget hsub
  have hchild : (p ++ "/idx=" ++ toString i, sub) ∈ archChildren buf (p, a) := by
    unfold archChildren
    refine List.mem_filterMap.mpr ⟨(i, e), ?_, ?_⟩
    · exact List.mk_mem_enum_iff_get?.mpr hget
    · simp [hsub]
  have hlevel : (p ++ "/idx=" ++ toString i, sub) ∈ archLevel buf (d + 1) := by
    unfold archLevel
    exact List.mem_flatMap.mpr ⟨(p, a), hmem, hchild⟩
  unfold iter_all_archives
  exact List.mem_flatMap.mpr ⟨d + 1, List.mem_range.mpr (by omega), hlevel⟩

/-- Witness for C5: the flagged entry of `c5buf`'s top archive produces
its child in the depth-1 traversal. -/
theorem C5_traversal_recurses_regardless_of_flags_witness :
    ("off=0x0/idx=0", (⟨21, 1, [⟨0, 0, 0, 0⟩]⟩ : Archive))
        ∈ iter_all_archives c5buf 1 :=
  C5_traversal_recurses_regardless_of_flags c5buf 1 0 "off=0x0"
    ⟨0, 1, [⟨1, 21, 0, 0⟩]⟩ 0 ⟨1, 21, 0, 0⟩ ⟨21, 1, [⟨0, 0, 0, 0⟩]⟩
    (by decide) (by decide) (by decide) (by decide)

/-! ### Claim C6 -/

/-- C6 counterexample: the 4-byte view `count=1, offsets=[1]` has no zero
terminator for its string (scanning from byte 2 finds only the word
`0x0001` and then runs out of view), yet the cited validator
(`export_d3_npc_names.py`, identical in the d3 import scripts) accepts it;
only the `export_digivice_data.py` variant rejects it. -/
theorem C6_unterminated_view_accepted :
    is_probable_text_archive c6view = some ⟨1, [1]⟩ ∧
    hasTerminatorWithin c6view 1 = false ∧
    digivice_is_probable_text_archive c6view = none := by
  refine ⟨by decide, by decide, by decide⟩

/-- C6 (amended): exact acceptance conditions of both validators.  The
sourced `is_probable_text_archive` accepts exactly on the header checks
(size, count range, table bounds, non-decreasing in-bounds offsets) — with
NO string-termination requirement; the `export_digivice_data.py` variant
additionally requires every string to have a zero terminator within the
4096-byte scan window. -/
theorem C6_validator_characterizations :
    ∀ view : ByteBuf,
      ((is_probable_text_archive view).isSome ↔
        (4 ≤ view.size ∧ 1 ≤ le16 view 0 ∧ le16 view 0 ≤ 20000 ∧
          2 + 2 * le16 view 0 ≤ view.size ∧
          offsetsOk view.size 0
            ((List.range (le16 view 0)).map (fun i => le16 view (2 + 2 * i)))
            = true)) ∧
      ((digivice_is_probable_text_archive view).isSome ↔
        (4 ≤ view.size ∧ 1 ≤ le16 view 0 ∧ le16 view 0 ≤ 20000 ∧
          2 + 2 * le16 view 0 ≤ view.size ∧
          offsetsOk view.size 0
            ((List.range (le16 view 0)).map (fun i => le16 view (2 + 2 * i)))
            = true ∧
          ((List.range (le16 view 0)).map (fun i => le16 view (2 + 2 * i))).all
            (fun w => hasTerminatorWithin view w) = true)) := by
  intro view
  constructor
  · simp only [is_probable_text_archive, isSome_ite_none, isSome_ite_some]
    constructor
    · rintro ⟨a, b, c, d⟩
      exact ⟨by omega, (not_not.mp b).1, (not_not.mp b).2, by omega, d⟩
    · rintro ⟨a, b, c, d, e⟩
      exact ⟨by omega, not_not.mpr ⟨b, c⟩, by omega, e⟩
  · simp only [digivice_is_probable_text_archive, isSome_ite_none,
      isSome_ite_else_none]
    constructor
    · rintro ⟨a, b, c, d, e, -⟩
      exact ⟨by omega, (not_not.mp b).1, (not_not.mp b).2, by omega, d, e⟩
    · rintro ⟨a, b, c, d, e, f⟩
      exact ⟨by omega, not_not.mpr ⟨b, c⟩, by omega, e, f, rfl⟩

/-- Witness for C6: via the characterisation, the unterminated `c6view`
is accepted by the sourced validator, and the terminated `c6viewOk` is
accepted by the Digivice variant. -/
theorem C6_validator_characterizations_witness :
    (is_probable_text_archive c6view).isSome ∧
    (digivice_is_probable_text_archive c6viewOk).isSome :=
  ⟨((C6_validator_characterizations c6view).1).mpr (by decide),
   ((C6_validator_characterizations c6viewOk).2).mpr (by decide)⟩

/-! ### Claim C7 -/

/-- C7: for every `w ≥ 1`, `h ≥ 1`, `bpp ∈ {2,4,6,8}` and every sequence
`v` of exactly `w*h` pixel values each below `2^bpp`, unpacking the bytes
produced by the MSB-first packer yields exactly `v`. -/
theorem C7_pack_unpack_roundtrip :
    ∀ (w h bpp : Nat) (v : List Nat), 1 ≤ w → 1 ≤ h →
      bpp ∈ ([2, 4, 6, 8] : List Nat) → v.length = w * h →
      (∀ x ∈ v, x < 2 ^ bpp) →
      ∃ packed, pack_bits_msb v w h bpp = some packed ∧
        unpack_bits_msb packed w h bpp = v := by
  intro w h bpp v _ _ hbppmem hlen hv
  have hbpp : 0 < bpp := by
    simp only [List.mem_cons, List.not_mem_nil, or_false] at hbppmem
    rcases hbppmem with h1 | h1 | h1 | h1 <;> omega
  obtain ⟨bs, hpack, hblen, hbbytes, hbval⟩ := pack_spec w h bpp v hlen
  refine ⟨bs, hpack, ?_⟩
  unfold unpack_bits_msb
  have hwh : w * h * bpp ≤ 8 * bs.length := by
    rw [hblen]
    omega
  have hspec := unpackGo_spec bpp hbpp bs 0 0 (w * h) (by norm_num) hbbytes
    (Or.inl hbpp)
  simp only [Nat.zero_mul, Nat.zero_add] at hspec
  have hmin : min (w * h) ((8 * bs.length) / bpp) = w * h := by
    have : w * h ≤ 8 * bs.length / bpp := by
      rw [Nat.le_div_iff_mul_le hbpp]
      omega
    omega
  rw [hspec, hmin]
  have hpadbits : 8 * bs.length
      = w * h * bpp + (8 * ((w * h * bpp + 7) / 8) - w * h * bpp) := by
    rw [hblen]
    omega
  have hdig : topDigits bpp (bytesVal bs) (8 * bs.length) (w * h) = v := by
    rw [hbval, hpadbits]
    have hshift := topDigits_shift bpp (w * h) (w * h * bpp)
      (8 * ((w * h * bpp + 7) / 8) - w * h * bpp) (packVal bpp v) 0
      (Nat.pos_pow_of_pos (8 * ((w * h * bpp + 7) / 8) - w * h * bpp)
        (by norm_num)) (le_refl _)
    rw [Nat.add_zero] at hshift
    rw [hshift]
    have := topDigits_packVal bpp hbpp v hv
    rwa [hlen] at this
  rw [hdig]
  have hl : v.length = w * h := hlen
  rw [← hl]
  simp

/-- Witness for C7 at `w = h = 2`, `bpp = 2`, `v = [1,2,3,0]`. -/
theorem C7_pack_unpack_roundtrip_witness :
    ∃ packed, pack_bits_msb [1, 2, 3, 0] 2 2 2 = some packed ∧
      unpack_bits_msb packed 2 2 2 = [1, 2, 3, 0] :=
  C7_pack_unpack_roundtrip 2 2 2 [1, 2, 3, 0] (by decide) (by decide)
    (by decide) (by decide) (by decide)

/-! ### Claim C8 -/

/-- C8 counterexample: the claimed per-sample error bound (the step
table's maximum step size, 66) fails badly: encoding then decoding
`[32767, 32767]` yields `[480, 1088]`, an error of `32287` on the first
sample — beyond the bound even when scaled by 16 to the PCM16 domain.  The
codec is slew-rate limited, so one step per sample cannot catch a large
jump. -/
theorem C8_per_sample_error_bound_refuted :
    gp_adpcm_decode (gp_adpcm_encode [32767, 32767]) = [480, 1088] ∧
    (∀ s ∈ step_table, s ≤ 66) ∧
    (66 : Int) * 16 < |32767 - 480| := by
  refine ⟨by decide, by decide, by decide⟩

/-- C8 (amended): the decode-of-encode relation that does hold, and holds
bit-exactly: for every PCM buffer of even length, decoding the encoded
bytes reproduces the encoder's own reconstruction trace — the clamped
running predictor after each quantised sample, scaled by 16. -/
theorem C8_decode_encode_is_encoder_trace :
    ∀ pcm : List Int, pcm.length % 2 = 0 →
      gp_adpcm_decode (gp_adpcm_encode pcm) = gp_adpcm_encode_trace pcm := by
  intro pcm h
  unfold gp_adpcm_decode gp_adpcm_encode gp_adpcm_encode_trace
  exact adpcm_pair_round (pcm.map pcmQuantize) ⟨0, 0⟩ (by simpa using h)

/-- Witness for C8 on the two-sample buffer `[32767, 32767]`. -/
theorem C8_decode_encode_is_encoder_trace_witness :
    gp_adpcm_decode (gp_adpcm_encode [32767, 32767])
      = gp_adpcm_encode_trace [32767, 32767] :=
  C8_decode_encode_is_encoder_trace [32767, 32767] (by decide)

/-! ### Claim C9 -/

/-- C9 counterexample: the D3 NPC flow accepts a name whose encoded byte
sequence (4 bytes) is strictly shorter than the slot's occupied span
(6 bytes): on `c9view`, slot 0's old name decodes to `"A"`, and the
proposed name `"B"` — same display length, encoding to `[0x0042]`, i.e.
4 bytes against capacity 6 — is accepted and written. -/
theorem C9_accept_without_exact_length :
    (d3NpcNameStep (zeroBuf 64) 0 c9view 2 [3, 6] 0 ['B'] c9fwd c9inv).2
        = true ∧
    encode_to_codes (applyRulesL ['B'] c9inv) = some [0x42] ∧
    (encode_bytes [0x42]).length = 4 ∧
    string_capacity [3, 6] 2 c9view.size 0 = 6 := by
  refine ⟨by decide, by decide, by decide, by decide⟩

/-- C9 (amended): exact acceptance of the name-update flows.  The
Digivice steps accept exactly when the name is free of forbidden
characters, encodes, and the encoded bytes equal the occupied span
(`acceptDigiSpec`); the D3 NPC step accepts exactly when the slot is in
range, the name is free of forbidden characters, its display length equals
the old name's, it encodes, and the encoded bytes are AT MOST the capacity
(`acceptD3Spec`).  In both, a rejected slot leaves the buffer unchanged. -/
theorem C9_name_acceptance_characterized :
    ∀ (data : ByteBuf) (base : Nat) (view : ByteBuf) (n : Nat)
      (offs : List Nat) (si : Nat) (name : List Char)
      (rules fwd inv : List (List Char × List Char)),
      ((digiviceNameStep data base view n offs si name rules).2 =
          acceptDigiSpec view n offs si name rules ∧
        ((digiviceNameStep data base view n offs si name rules).2 = false →
          (digiviceNameStep data base view n offs si name rules).1 = data)) ∧
      ((d3NpcNameStep data base view n offs si name fwd inv).2 =
          acceptD3Spec view n offs si name fwd inv ∧
        ((d3NpcNameStep data base view n offs si name fwd inv).2 = false →
          (d3NpcNameStep data base view n offs si name fwd inv).1 = data)) := by
  intro data base view n offs si name rules fwd inv
  constructor
  · constructor
    · unfold digiviceNameStep acceptDigiSpec
      cases h : encode_tag_codes_digivice (applyRulesL name rules) with
      | none => simp only [h]; split_ifs <;> simp_all
      | some codes => simp only [h]; split_ifs <;> simp_all
    · intro hfalse
      unfold digiviceNameStep at *
      cases h : encode_tag_codes_digivice (applyRulesL name rules) with
      | none => simp only [h] at hfalse ⊢; split_ifs <;> rfl
      | some codes =>
        simp only [h] at hfalse ⊢
        split_ifs at hfalse ⊢ <;> simp_all
  · constructor
    · unfold d3NpcNameStep acceptD3Spec
      cases h : encode_to_codes (applyRulesL name inv) with
      | none => simp only [h]; split_ifs <;> simp_all
      | some codes => simp only [h]; split_ifs <;> simp_all
    · intro hfalse
      unfold d3NpcNameStep at *
      cases h : encode_to_codes (applyRulesL name inv) with
      | none => simp only [h] at hfalse ⊢; split_ifs <;> rfl
      | some codes =>
        simp only [h] at hfalse ⊢
        split_ifs at hfalse ⊢ <;> simp_all

/-- Witness for C9: the forbidden character `+` makes the D3 step reject
slot 1 of `c9view` and return the buffer unchanged. -/
theorem C9_name_acceptance_characterized_witness :
    (d3NpcNameStep (zeroBuf 64) 0 c9view 2 [3, 6] 1 ['+'] c9fwd c9inv).2 =
      acceptD3Spec c9view 2 [3, 6] 1 ['+'] c9fwd c9inv ∧
    (d3NpcNameStep (zeroBuf 64) 0 c9view 2 [3, 6] 1 ['+'] c9fwd c9inv).1
      = zeroBuf 64 :=
  ⟨(C9_name_acceptance_characterized (zeroBuf 64) 0 c9view 2 [3, 6] 1 ['+']
      c9fwd c9fwd c9inv).2.1,
   (C9_name_acceptance_characterized (zeroBuf 64) 0 c9view 2 [3, 6] 1 ['+']
      c9fwd c9fwd c9inv).2.2 (by decide)⟩

/-! ### Claim C10 -/

/-- C10 counterexample: a negative Power value satisfies `power ≤ 225`,
but instead of being \"written verbatim\" it makes `struct.pack_into("<H", ...)`
raise `struct.error` (the guard only tests `power > MAX_POWER`): the write
does not happen and the run aborts. -/
theorem C10_negative_power_struct_error :
    powerStep (zeroBuf 700000) 1 (-1) = none ∧ ((-1 : Int) ≤ MAX_POWER) :=
  ⟨rfl, by decide⟩

/-- C10 (amended): full semantics of the power update.  Power above
`MAX_POWER = 225` leaves the buffer untouched; `0 ≤ power ≤ 225` (with the
record in bounds) writes the value little-endian at
`BASE_STATS + SlotIndex * RECORD_SIZE` leaving every other byte unchanged;
negative power raises `struct.error`. -/
theorem C10_power_update_semantics :
    ∀ (data : ByteBuf) (slotIndex : Nat) (power : Int),
      (MAX_POWER < power → powerStep data slotIndex power = some data) ∧
      (0 ≤ power → power ≤ MAX_POWER →
        BASE_STATS + slotIndex * RECORD_SIZE + 2 ≤ data.size →
        ∃ d', powerStep data slotIndex power = some d' ∧
          d'.size = data.size ∧
          d'.byte (BASE_STATS + slotIndex * RECORD_SIZE) = power.toNat % 256 ∧
          d'.byte (BASE_STATS + slotIndex * RECORD_SIZE + 1)
            = power.toNat / 256 ∧
          ∀ i, i ≠ BASE_STATS + slotIndex * RECORD_SIZE →
            i ≠ BASE_STATS + slotIndex * RECORD_SIZE + 1 →
            d'.byte i = data.byte i) ∧
      (power < 0 → powerStep data slotIndex power = none) := by
  intro data slotIndex power
  have hM : MAX_POWER = 225 := rfl
  refine ⟨?_, ?_, ?_⟩
  · intro h
    simp only [powerStep, if_pos h]
  · intro h0 h225 hsize
    have hng : ¬ power > MAX_POWER := by omega
    have hnr : ¬ (power < 0 ∨ 65535 < power) := by omega
    have hns : ¬ (data.size < BASE_STATS + slotIndex * RECORD_SIZE + 2) := by
      omega
    refine ⟨⟨data.size, fun i =>
        if i = BASE_STATS + slotIndex * RECORD_SIZE then power.toNat % 256
        else if i = BASE_STATS + slotIndex * RECORD_SIZE + 1
          then power.toNat / 256
        else data.byte i⟩, ?_, rfl, ?_, ?_, ?_⟩
    · simp only [powerStep, pyPackIntoU16, if_neg hng, if_neg hnr, if_neg hns]
    · simp
    · have hne : BASE_STATS + slotIndex * RECORD_SIZE + 1
          ≠ BASE_STATS + slotIndex * RECORD_SIZE := by omega
      simp [hne]
    · intro i hi1 hi2
      simp [hi1, hi2]
  · intro h
    have hng : ¬ power > MAX_POWER := by omega
    simp only [powerStep, pyPackIntoU16, if_neg hng, if_pos (Or.inl h)]

/-- Witness for C10 at powers 300 (skipped), 100 (written) and -5
(struct.error) on a 700000-byte buffer. -/
theorem C10_power_update_semantics_witness :
    powerStep (zeroBuf 700000) 2 300 = some (zeroBuf 700000) ∧
    (∃ d', powerStep (zeroBuf 700000) 1 100 = some d' ∧
      d'.size = (zeroBuf 700000).size ∧
      d'.byte (BASE_STATS + 1 * RECORD_SIZE) = (100 : Int).toNat % 256 ∧
      d'.byte (BASE_STATS + 1 * RECORD_SIZE + 1) = (100 : Int).toNat / 256 ∧
      ∀ i, i ≠ BASE_STATS + 1 * RECORD_SIZE →
        i ≠ BASE_STATS + 1 * RECORD_SIZE + 1 →
        d'.byte i = (zeroBuf 700000).byte i) ∧
    powerStep (zeroBuf 700000) 1 (-5) = none :=
  ⟨(C10_power_update_semantics (zeroBuf 700000) 2 300).1 (by decide),
   (C10_power_update_semantics (zeroBuf 700000) 1 100).2.1 (by decide)
     (by decide) (by decide),
   (C10_power_update_semantics (zeroBuf 700000) 1 (-5)).2.2 (by decide)⟩

end DCM
